import Mathlib

/-!
Verification development for the RLM chunk/wave pipeline:
a shallow embedding of `adaptive-chunker.py` (content classifier, boundary
finder, adaptive chunk assembler, chunk-size feedback controller) and of
`parallel-processor.py` (per-chunk worker, wave scheduler, confidence
extractor), together with theorems settling the specification claims.

Modelling conventions:
* text is `List Char` (one element per Unicode scalar, matching Python's
  `len`/slicing on `str`);
* Python floats used by the code (`0.5`, `1.2`, `0.7`, confidence values)
  are modelled with exact arithmetic (`Nat`/`Rat`); every comparison the
  claims depend on is exact at these constants;
* fallible Python code (raising) is modelled with `Except String`;
* the nondeterministic completion order of concurrent calls inside a wave
  is an explicit parameter (a list of indices into the wave).
-/

namespace RLM

/-- Python whitespace for `str.strip` and the ASCII part of regex `\s`. -/
def pyWs (c : Char) : Bool :=
  c = ' ' || c = '\t' || c = '\n' || c = '\r' || c = '\x0b' || c = '\x0c'

/-- Python `str.strip()`: drop whitespace from both ends. -/
def pyStrip (s : List Char) : List Char :=
  ((s.dropWhile pyWs).reverse.dropWhile pyWs).reverse

/-- Content types of `adaptive-chunker.py` (enum `ContentType`). -/
inductive ContentType where
  | JSON | MARKDOWN | LOG | CODE | TEXT
  deriving DecidableEq, Repr

/-- Character `i` of `s` is whitespace (false past the end). -/
def wsAt (s : List Char) (i : Nat) : Bool :=
  match s.get? i with
  | some c => pyWs c
  | none => false

/-- The keyword starts `s` as a prefix. -/
def startsWithKw (s : List Char) (kw : String) : Bool :=
  kw.toList.isPrefixOf s

/-- Regex `^\{.*\}$` (DOTALL) anchored on stripped text: first char is an
opening brace, last char is a closing brace, at least two chars. -/
def jsonObjMatch (s : List Char) : Bool :=
  decide (2 ≤ s.length) && (s.head? == some '\x7b') && (s.getLast? == some '\x7d')

/-- Regex `^\[.*\]$` (DOTALL) anchored on stripped text. -/
def jsonArrMatch (s : List Char) : Bool :=
  decide (2 ≤ s.length) && (s.head? == some '[') && (s.getLast? == some ']')

/-- Regex `^#{1,6}\s`: one to six leading hash marks followed by one
whitespace character (seven or more hashes never match, since the
quantifier backtracks onto another hash). -/
def markdownMatch (s : List Char) : Bool :=
  let k := (s.takeWhile (fun c => c = '#')).length
  decide (1 ≤ k) && decide (k ≤ 6) && wsAt s k

/-- Regex `^\[\d{4}-\d{2}-\d{2}]`: an ISO-date-bracketed log prefix. -/
def logMatch (s : List Char) : Bool :=
  match s with
  | '[' :: a1 :: a2 :: a3 :: a4 :: '-' :: b1 :: b2 :: '-' :: c1 :: c2 :: ']' :: _ =>
      a1.isDigit && a2.isDigit && a3.isDigit && a4.isDigit &&
      b1.isDigit && b2.isDigit && c1.isDigit && c2.isDigit
  | _ => false

/-- Alternatives of the first code-detection regex. -/
def codeKw1 : List String :=
  ["import", "def", "class", "from", "function", "const", "let", "var", "interface", "type"]

/-- Alternatives of the second code-detection regex. -/
def codeKw2 : List String :=
  ["public", "private", "protected", "async", "await"]

/-- Alternatives of the third code-detection regex. -/
def codeKw3 : List String :=
  ["if", "for", "while", "switch", "try", "catch", "return"]

/-- Regex `^(kw|...)\s+`: some keyword followed by at least one whitespace
character. -/
def kwThenWs (s : List Char) (kws : List String) : Bool :=
  kws.any (fun kw => startsWithKw s kw && wsAt s kw.length)

/-- Regex `^(if|for|...)\s*\(`: keyword, optional whitespace, then an
opening parenthesis. -/
def kwThenParen (s : List Char) (kws : List String) : Bool :=
  kws.any (fun kw =>
    startsWithKw s kw && (((s.drop kw.length).dropWhile pyWs).head? == some '('))

/-- `AdaptiveChunker.detect_content_type`: strip the content and test the
compiled patterns in the source's fixed order (the `lru_cache` decorator
memoizes a pure function and is semantically transparent). -/
def detect_content_type (content : List Char) : ContentType :=
  let s := pyStrip content
  if jsonObjMatch s then ContentType.JSON
  else if jsonArrMatch s then ContentType.JSON
  else if markdownMatch s then ContentType.MARKDOWN
  else if logMatch s then ContentType.LOG
  else if kwThenWs s codeKw1 then ContentType.CODE
  else if kwThenWs s codeKw2 then ContentType.CODE
  else if kwThenParen s codeKw3 then ContentType.CODE
  else ContentType.TEXT

/-! JSON values and a model of Python `json.loads` / `json.dumps`, used by
the boundary finder's structured-data branch and by the specification-side
predicate of the content-classifier claim. -/

/-- Parsed JSON value as produced by `json.loads`. Numbers keep an
is-integer flag, the integer value (meaningful when integral) and the raw
source literal; `json.dumps` of a non-integral float (Python float repr)
is approximated by that literal, which only influences the substring
searches of the boundary finder, never a claim. -/
inductive JVal where
  | null
  | jbool (b : Bool)
  | jnum (isInt : Bool) (ip : Int) (raw : List Char)
  | jstr (s : List Char)
  | jarr (xs : List JVal)
  | jobj (kvs : List (List Char × JVal))

/-- JSON whitespace accepted between tokens by `json.loads`. -/
def jsonWsChar (c : Char) : Bool :=
  c = ' ' || c = '\t' || c = '\n' || c = '\r'

/-- Skip JSON whitespace. -/
def skipJsonWs (s : List Char) : List Char := s.dropWhile jsonWsChar

/-- Value of one hexadecimal digit. -/
def hexVal (c : Char) : Option Nat :=
  if c.isDigit then some (c.toNat - 48)
  else if 'a' ≤ c ∧ c ≤ 'f' then some (c.toNat - 87)
  else if 'A' ≤ c ∧ c ≤ 'F' then some (c.toNat - 55)
  else none

/-- Body of a JSON string after the opening quote: returns the decoded
characters and the remainder after the closing quote. Unpaired surrogate
escapes are approximated by `Char.ofNat`'s total behaviour (cosmetic: no
claim inspects such strings). -/
def parseStrGo (acc : List Char) : List Char → Option (List Char × List Char)
  | [] => none
  | '"' :: r => some (acc.reverse, r)
  | '\\' :: r =>
    match r with
    | '"' :: r2 => parseStrGo ('"' :: acc) r2
    | '\\' :: r2 => parseStrGo ('\\' :: acc) r2
    | '/' :: r2 => parseStrGo ('/' :: acc) r2
    | 'b' :: r2 => parseStrGo ('\x08' :: acc) r2
    | 'f' :: r2 => parseStrGo ('\x0c' :: acc) r2
    | 'n' :: r2 => parseStrGo ('\n' :: acc) r2
    | 'r' :: r2 => parseStrGo ('\r' :: acc) r2
    | 't' :: r2 => parseStrGo ('\t' :: acc) r2
    | 'u' :: h1 :: h2 :: h3 :: h4 :: r2 =>
      match hexVal h1, hexVal h2, hexVal h3, hexVal h4 with
      | some a, some b, some c, some d =>
        parseStrGo (Char.ofNat (((a * 16 + b) * 16 + c) * 16 + d) :: acc) r2
      | _, _, _, _ => none
    | _ => none
  | c :: r => if c.toNat < 32 then none else parseStrGo (c :: acc) r

/-- Digits to a natural number. -/
def natOfDigits (ds : List Char) : Nat :=
  ds.foldl (fun a c => a * 10 + (c.toNat - 48)) 0

/-- Strict JSON number grammar (`json.loads`): optional minus, integer
part without leading zeros, optional fraction, optional exponent. -/
def parseNum (cs : List Char) : Option (JVal × List Char) :=
  let negPair : Bool × List Char := match cs with | '-' :: r => (true, r) | _ => (false, cs)
  let neg := negPair.1
  let s1 := negPair.2
  let ds := s1.takeWhile Char.isDigit
  let s2 := s1.dropWhile Char.isDigit
  if ds = [] then none
  else if 2 ≤ ds.length ∧ ds.head? = some '0' then none
  else
    let fracTriple : List Char × List Char × Bool :=
      match s2 with
      | '.' :: r => (r.takeWhile Char.isDigit, r.dropWhile Char.isDigit, true)
      | _ => ([], s2, false)
    let fracDs := fracTriple.1
    let s3 := fracTriple.2.1
    let hasFrac := fracTriple.2.2
    if hasFrac ∧ fracDs = [] then none
    else
      let expQuad : List Char × List Char × Bool :=
        match s3 with
        | 'e' :: r | 'E' :: r =>
          let signPair : List Char × List Char :=
            match r with
            | '+' :: r2 => (['+'], r2)
            | '-' :: r2 => (['-'], r2)
            | _ => ([], r)
          let eds := signPair.2.takeWhile Char.isDigit
          (signPair.1 ++ eds, signPair.2.dropWhile Char.isDigit, true)
        | _ => ([], s3, false)
      let expDs := expQuad.1
      let s4 := expQuad.2.1
      let hasExp := expQuad.2.2
      if hasExp ∧ (expDs.filter Char.isDigit) = [] then none
      else
        let expMark : List Char := if hasExp then ['e'] else []
        let raw := (if neg then ['-'] else []) ++ ds ++
          (if hasFrac then '.' :: fracDs else []) ++ expMark ++ expDs
        let ipNat := natOfDigits ds
        let ip : Int := if neg then -(ipNat : Int) else (ipNat : Int)
        some (JVal.jnum (!hasFrac && !hasExp) ip raw, s4)

/-- Insert a key/value pair as Python dict assignment during parsing:
replace the value of an existing key in place, else append. -/
def insObjKey : List (List Char × JVal) → List Char → JVal → List (List Char × JVal)
  | [], k, v => [(k, v)]
  | (k0, v0) :: rest, k, v =>
    if k0 = k then (k0, v) :: rest else (k0, v0) :: insObjKey rest k v

mutual

/-- Fueled recursive-descent parser for one JSON value (model of the
grammar `json.loads` accepts, including the nonstandard NaN/Infinity). -/
def parseVal : Nat → List Char → Option (JVal × List Char)
  | 0, _ => none
  | fuel + 1, cs =>
    let s := skipJsonWs cs
    match s with
    | 'n' :: 'u' :: 'l' :: 'l' :: r => some (JVal.null, r)
    | 't' :: 'r' :: 'u' :: 'e' :: r => some (JVal.jbool true, r)
    | 'f' :: 'a' :: 'l' :: 's' :: 'e' :: r => some (JVal.jbool false, r)
    | 'N' :: 'a' :: 'N' :: r => some (JVal.jnum false 0 ("NaN".toList), r)
    | 'I' :: 'n' :: 'f' :: 'i' :: 'n' :: 'i' :: 't' :: 'y' :: r =>
      some (JVal.jnum false 0 ("Infinity".toList), r)
    | '-' :: 'I' :: 'n' :: 'f' :: 'i' :: 'n' :: 'i' :: 't' :: 'y' :: r =>
      some (JVal.jnum false 0 ("-Infinity".toList), r)
    | '"' :: r => (parseStrGo [] r).map (fun p => (JVal.jstr p.1, p.2))
    | '[' :: r =>
      match skipJsonWs r with
      | ']' :: r2 => some (JVal.jarr [], r2)
      | r2 => parseArrItems fuel r2 []
    | '\x7b' :: r =>
      match skipJsonWs r with
      | '\x7d' :: r2 => some (JVal.jobj [], r2)
      | r2 => parseObjItems fuel r2 []
    | _ => parseNum s

/-- Comma-separated array elements after the opening bracket. -/
def parseArrItems : Nat → List Char → List JVal → Option (JVal × List Char)
  | 0, _, _ => none
  | fuel + 1, cs, acc =>
    match parseVal fuel cs with
    | none => none
    | some (v, rest) =>
      match skipJsonWs rest with
      | ',' :: r2 => parseArrItems fuel r2 (acc ++ [v])
      | ']' :: r2 => some (JVal.jarr (acc ++ [v]), r2)
      | _ => none

/-- Comma-separated object members after the opening brace. -/
def parseObjItems : Nat → List Char → List (List Char × JVal) → Option (JVal × List Char)
  | 0, _, _ => none
  | fuel + 1, cs, acc =>
    match skipJsonWs cs with
    | '"' :: r =>
      match parseStrGo [] r with
      | none => none
      | some (k, r2) =>
        match skipJsonWs r2 with
        | ':' :: r3 =>
          match parseVal fuel r3 with
          | none => none
          | some (v, r4) =>
            match skipJsonWs r4 with
            | ',' :: r5 => parseObjItems fuel r5 (insObjKey acc k v)
            | '\x7d' :: r5 => some (JVal.jobj (insObjKey acc k v), r5)
            | _ => none
        | _ => none
    | _ => none

end

/-- Model of `json.loads`: parse a complete document, allowing surrounding
whitespace only. -/
def json_loads (cs : List Char) : Option JVal :=
  match parseVal (cs.length * 3 + 3) cs with
  | some (v, rest) => if skipJsonWs rest = [] then some v else none
  | none => none

/-- Lower-case hexadecimal digit. -/
def hexDigit (n : Nat) : Char :=
  if n < 10 then Char.ofNat (48 + n) else Char.ofNat (87 + n)

/-- Four-digit `\uXXXX` escape. -/
def uEscape4 (n : Nat) : List Char :=
  ['\\', 'u', hexDigit (n / 4096 % 16), hexDigit (n / 256 % 16),
   hexDigit (n / 16 % 16), hexDigit (n % 16)]

/-- Escape one character as `json.dumps` (default `ensure_ascii`) does. -/
def escapeJsonChar (c : Char) : List Char :=
  if c = '"' then ['\\', '"']
  else if c = '\\' then ['\\', '\\']
  else if c = '\n' then ['\\', 'n']
  else if c = '\r' then ['\\', 'r']
  else if c = '\t' then ['\\', 't']
  else if c = '\x08' then ['\\', 'b']
  else if c = '\x0c' then ['\\', 'f']
  else if c.toNat < 32 then uEscape4 c.toNat
  else if c.toNat < 128 then [c]
  else if c.toNat < 65536 then uEscape4 c.toNat
  else
    uEscape4 (55296 + (c.toNat - 65536) / 1024) ++ uEscape4 (56320 + (c.toNat - 65536) % 1024)

/-- Serialize a string body with quotes. -/
def dumpsStr (s : List Char) : List Char :=
  '"' :: (s.flatMap escapeJsonChar) ++ ['"']

mutual

/-- Model of `json.dumps(value, separators=(",", ":"))`: compact encoding
with insertion-ordered object members. -/
def json_dumps : JVal → List Char
  | JVal.null => "null".toList
  | JVal.jbool true => "true".toList
  | JVal.jbool false => "false".toList
  | JVal.jnum isInt ip raw => if isInt then (toString ip).toList else raw
  | JVal.jstr s => dumpsStr s
  | JVal.jarr xs => '[' :: dumpsArr xs ++ [']']
  | JVal.jobj kvs => '\x7b' :: dumpsObj kvs ++ ['\x7d']

/-- Array elements joined by commas. -/
def dumpsArr : List JVal → List Char
  | [] => []
  | [x] => json_dumps x
  | x :: y :: rest => json_dumps x ++ ',' :: dumpsArr (y :: rest)

/-- Object members joined by commas. -/
def dumpsObj : List (List Char × JVal) → List Char
  | [] => []
  | [(k, v)] => dumpsStr k ++ ':' :: json_dumps v
  | (k, v) :: m :: rest => dumpsStr k ++ ':' :: json_dumps v ++ ',' :: dumpsObj (m :: rest)

end

/-- Whether the needle occurs in the haystack at position `p`. -/
def occursAt (hay needle : List Char) (p : Nat) : Bool :=
  needle.isPrefixOf (hay.drop p)

/-- Python `str.find(needle, start)` for the nonnegative starts the
boundary finder produces: leftmost occurrence position, or `-1`. -/
def pyFindFrom (hay needle : List Char) (start : Int) : Int :=
  match ((List.range (hay.length + 1)).filter
      (fun (p : Nat) => decide (start ≤ (p : Int)) && occursAt hay needle p)).head? with
  | some p => (p : Int)
  | none => -1

/-- The `f-string` key/value needle of the object branch: the raw
(unescaped) key between quotes, a colon, then the dumped value. -/
def kvNeedle (k : List Char) (v : JVal) : List Char :=
  '"' :: k ++ '"' :: ':' :: json_dumps v

/-- Array branch of the structured-data boundary search: walk the parsed
elements, locating each one's compact dump in the original text from a
moving offset; record the position of every element but the first that is
found. -/
def jsonArrMarksGo (content : List Char) : List JVal → Nat → Int → List Nat
  | [], _, _ => []
  | item :: rest, i, offset =>
    let s := json_dumps item
    let pos := pyFindFrom content s offset
    let tail := jsonArrMarksGo content rest (i + 1) (pos + s.length)
    if pos ≠ -1 ∧ 0 < i then pos.toNat :: tail else tail

/-- Object branch of the structured-data boundary search. -/
def jsonObjMarksGo (content : List Char) : List (List Char × JVal) → Nat → Int → List Nat
  | [], _, _ => []
  | (k, v) :: rest, i, offset =>
    let s := kvNeedle k v
    let pos := pyFindFrom content s offset
    let tail := jsonObjMarksGo content rest (i + 1) (pos + s.length)
    if pos ≠ -1 ∧ 0 < i then pos.toNat :: tail else tail

/-- Position `p` starts a line (MULTILINE `^`). -/
def lineStartAt (s : List Char) (p : Nat) : Bool :=
  p == 0 || (s.get? (p - 1) == some '\n')

/-- Match of `^#{2,4}\s+` (MULTILINE) starting at `p`. -/
def mdSemAt (s : List Char) (p : Nat) : Bool :=
  lineStartAt s p &&
  (let t := s.drop p
   let k := (t.takeWhile (fun c => c = '#')).length
   decide (2 ≤ k) && decide (k ≤ 4) && wsAt t k)

/-- Match of `^\[\d{4}-\d{2}-\d{2}]` (MULTILINE) starting at `p`. -/
def logSemAt (s : List Char) (p : Nat) : Bool :=
  lineStartAt s p && logMatch (s.drop p)

/-- Match of the first code boundary pattern at `p`: a top-level
declaration keyword with its trailing space. -/
def codeSem1At (s : List Char) (p : Nat) : Bool :=
  lineStartAt s p &&
  (["def ", "class ", "function ", "interface ", "type ", "struct "].any
    (fun kw => startsWithKw (s.drop p) kw))

/-- Match of the second code boundary pattern at `p`: a modifier with its
trailing space, at least one more whitespace, then a declaration keyword. -/
def codeSem2At (s : List Char) (p : Nat) : Bool :=
  lineStartAt s p &&
  (["public ", "private ", "protected ", "static ", "async "].any (fun kw =>
    let t := s.drop p
    startsWithKw t kw &&
    (let t2 := t.drop kw.length
     (t2.head?.elim false pyWs) &&
     (["def ", "class ", "function "].any (fun kw2 => startsWithKw (t2.dropWhile pyWs) kw2)))))

/-- Match of `\n\n+` at `p`: the start of a maximal run of two or more
newline characters (`finditer` consumes each run whole). -/
def textBoundaryAt (s : List Char) (p : Nat) : Bool :=
  (s.get? p == some '\n') && (s.get? (p + 1) == some '\n') &&
  (p == 0 || !(s.get? (p - 1) == some '\n'))

/-- Match of the fallback pattern `\n(?=\{|\[)` at `p`. -/
def jsonFallbackAt (s : List Char) (p : Nat) : Bool :=
  (s.get? p == some '\n') &&
  ((s.get? (p + 1) == some '\x7b') || (s.get? (p + 1) == some '['))

/-- Start positions of all matches of a local pattern (`re.finditer`; for
every pattern used here, consumed text never hides a later match start, so
the match starts are exactly the positions satisfying the predicate). -/
def marksOf (pred : List Char → Nat → Bool) (s : List Char) : List Nat :=
  (List.range (s.length + 1)).filter (fun p => pred s p)

/-- Insert into a strictly sorted list, dropping duplicates. -/
def insertSortedDedup (x : Nat) : List Nat → List Nat
  | [] => [x]
  | y :: ys =>
    if x < y then x :: y :: ys
    else if x = y then y :: ys
    else y :: insertSortedDedup x ys

/-- Python `sorted(set(l))`: strictly increasing enumeration of the
elements. -/
def sortedDedup (l : List Nat) : List Nat :=
  l.foldr insertSortedDedup []

/-- `AdaptiveChunker.find_semantic_boundaries`: raw pattern marks by
content type (the structured-data branch parses the document and searches
for each element's dump; parse failure falls back to the line pattern),
then `sorted(set([0] + marks + [len(content)]))`. -/
def find_semantic_boundaries (content : List Char) (ct : ContentType) : List Nat :=
  let raw : List Nat :=
    match ct with
    | ContentType.JSON =>
      match json_loads content with
      | some (JVal.jarr items) => jsonArrMarksGo content items 0 0
      | some (JVal.jobj kvs) => jsonObjMarksGo content kvs 0 0
      | some _ => []
      | none => marksOf jsonFallbackAt content
    | ContentType.MARKDOWN => marksOf mdSemAt content
    | ContentType.LOG => marksOf logSemAt content
    | ContentType.CODE => marksOf codeSem1At content ++ marksOf codeSem2At content
    | ContentType.TEXT => marksOf textBoundaryAt content
  sortedDedup (0 :: raw ++ [content.length])

/-! Adaptive chunk assembler and chunk-size feedback controller. -/

/-- Python slice `content[a:b]` for `0 ≤ a ≤ b` (the assembler's use). -/
def slice (content : List Char) (a b : Nat) : List Char :=
  (content.drop a).take (b - a)

/-- State of one `AdaptiveChunker` instance (`__init__`). -/
structure AdaptiveChunker where
  chunk_size : Nat
  min_chunk_size : Nat
  max_chunk_size : Nat
  optimal_time : Nat
  processing_times : List Int

/-- Body of `_split_large_chunk`: cut off `csm1 + 1` characters per step,
numbering the pieces from zero (the fuel, instantiated with the chunk
length, only drives structural termination). -/
def splitLargeGo (csm1 : Nat) : Nat → List Char → Nat → List (List Char × Nat)
  | 0, _, _ => []
  | _ + 1, [], _ => []
  | fuel + 1, c :: rem, idx =>
    ((c :: rem).take (csm1 + 1), idx) :: splitLargeGo csm1 fuel (rem.drop csm1) (idx + 1)

/-- `AdaptiveChunker._split_large_chunk(chunk, max_size)`: fixed-size
sub-chunks of width `max_size`, indexed 0, 1, 2, … within the chunk.
With `max_size = 0` Python's `range(0, len, 0)` raises `ValueError`; the
guard returns the empty list and the theorems assume a positive size. -/
def _split_large_chunk (chunk : List Char) (max_size : Nat) : List (List Char × Nat) :=
  if max_size = 0 then [] else splitLargeGo (max_size - 1) chunk.length chunk 0

/-- The boundary walk of `create_adaptive_chunks`: for each candidate
span, split it when longer than twice the target size (sub-chunk indices
restart at zero), merge it with the following span when shorter than half
the target size (`chunk_len < chunk_size * 0.5` is exactly
`2 * chunk_len < chunk_size`), else keep it; kept and merged chunks are
indexed by the running output length `k`. -/
def buildChunks (content : List Char) (cs : Nat) : List Nat → Nat → List (List Char × Nat)
  | b0 :: b1 :: rest, k =>
    if cs * 2 < (slice content b0 b1).length then
      _split_large_chunk (slice content b0 b1) cs ++
        buildChunks content cs (b1 :: rest)
          (k + (_split_large_chunk (slice content b0 b1) cs).length)
    else if 2 * (slice content b0 b1).length < cs then
      match rest with
      | b2 :: rest2 => (slice content b0 b2, k) :: buildChunks content cs (b2 :: rest2) (k + 1)
      | [] => [(slice content b0 b1, k)]
    else (slice content b0 b1, k) :: buildChunks content cs (b1 :: rest) (k + 1)
  | _, _ => []

/-- The greedy bucket pass of `create_adaptive_chunks` when `max_chunks`
is exceeded: concatenate consecutive chunks while the running size stays
within the target bucket size, flushing the nonempty current bucket
otherwise; buckets are indexed by the running output length `k`. -/
def mergeGo (target : Nat) : List (List Char) → List Char → Nat → List (List Char × Nat)
  | [], cur, k => if cur.isEmpty then [] else [(cur, k)]
  | c :: rest, cur, k =>
    if cur.length + c.length ≤ target then mergeGo target rest (cur ++ c) k
    else if cur.isEmpty then mergeGo target rest c k
    else (cur, k) :: mergeGo target rest c (k + 1)

/-- `AdaptiveChunker.create_adaptive_chunks(content, max_chunks)`:
classify, find boundaries, walk them, then apply the greedy bucket pass
when a truthy `max_chunks` is exceeded (bucket target
`len(content) // max_chunks`). -/
def create_adaptive_chunks (a : AdaptiveChunker) (content : List Char)
    (max_chunks : Option Nat) : List (List Char × Nat) :=
  let ct := detect_content_type content
  let bs := find_semantic_boundaries content ct
  let chunks := buildChunks content a.chunk_size bs 0
  match max_chunks with
  | none => chunks
  | some m =>
    if 0 < m ∧ m < chunks.length then
      mergeGo (content.length / m) (chunks.map Prod.fst) [] 0
    else chunks

/-- `AdaptiveChunker.adjust_chunk_size(processing_time_ms)`: record the
duration; below 5000 ms grow the target by 20 % clamped to the maximum,
above 15000 ms shrink it by 30 % clamped to the minimum (Python's
`int(size * 1.2)` and `int(size * 0.7)` are modelled by the exact
truncations `size * 12 / 10` and `size * 7 / 10`; the clamping claims
depend only on `size ≤ size * 12 / 10` and `size * 7 / 10 ≤ size`, which
also hold for the float versions). -/
def adjust_chunk_size (a : AdaptiveChunker) (t : Int) : AdaptiveChunker :=
  if t < 5000 then
    { a with processing_times := a.processing_times ++ [t],
             chunk_size := min (a.chunk_size * 12 / 10) a.max_chunk_size }
  else if 15000 < t then
    { a with processing_times := a.processing_times ++ [t],
             chunk_size := max (a.chunk_size * 7 / 10) a.min_chunk_size }
  else
    { a with processing_times := a.processing_times ++ [t] }

/-- Concatenation of the text of a chunk list, in list order. -/
def joinFst (chunks : List (List Char × Nat)) : List Char :=
  (chunks.map Prod.fst).flatten

/-- Consecutive naturals starting at `k`. -/
def natsFrom (k n : Nat) : List Nat :=
  match n with
  | 0 => []
  | n + 1 => k :: natsFrom (k + 1) n

/-- Every adjacent boundary span fits within twice the target size (the
hypothesis under which the boundary walk never enters the split branch). -/
def spansFit (content : List Char) (cs : Nat) : List Nat → Bool
  | a :: b :: r => decide ((slice content a b).length ≤ cs * 2) && spansFit content cs (b :: r)
  | _ => true

/-! Parallel wave processor. -/

/-- Python values crossing the weakly-typed callback boundary. -/
inductive PyVal where
  | pynone
  | pybool (b : Bool)
  | pyint (n : Int)
  | pyfloat (q : Rat)
  | pystr (s : String)
  | pylist (xs : List PyVal)
  | pydict (kvs : List (String × PyVal))

/-- Result record built by `process_chunk` (the wall-clock `timestamp`
field is abstracted away; `result` is present exactly on success and
`error` exactly on failure, as in the two dict literals of the source). -/
structure Rec where
  chunk_id : String
  success : Bool
  result : Option PyVal
  error : Option String
  tokens_processed : Nat

/-- Input dict passed to the subagent callback. -/
structure CbInput where
  chunk_file : String
  chunk_content : List Char
  query : String
  chunk_size : Nat

/-- Last path component (`os.path.basename` for slash-separated paths). -/
def basenameChars (s : List Char) : List Char :=
  (s.reverse.takeWhile (fun c => c ≠ '/')).reverse

/-- Remove every non-overlapping occurrence of a nonempty needle,
scanning left to right (Python `str.replace(old, "")`; the fuel,
instantiated with the scanned length, only drives structural
termination). -/
def removeGo (nd : List Char) : Nat → List Char → List Char
  | 0, s => s
  | _ + 1, [] => []
  | fuel + 1, c :: rest =>
    if nd.isPrefixOf (c :: rest) then removeGo nd fuel ((c :: rest).drop nd.length)
    else c :: removeGo nd fuel rest

/-- Python `s.replace(old, "")` for a nonempty `old`. -/
def removeAll (nd s : List Char) : List Char :=
  removeGo nd s.length s

/-- `ParallelWaveProcessor.extract_chunk_id`: basename with every
occurrence of `.txt` and `.json` removed. -/
def extract_chunk_id (chunk_path : String) : String :=
  String.mk (removeAll ".json".toList (removeAll ".txt".toList (basenameChars chunk_path.toList)))

/-- Python `len(s.split())`: number of maximal nonblank runs. -/
def wordCount (cs : List Char) : Nat :=
  ((' ' :: cs).zip cs).countP (fun p => pyWs p.1 && !pyWs p.2)

/-- `ParallelWaveProcessor.process_chunk`: read the chunk file, truncate
to 5000 characters, call the subagent; any exception from the read or the
callback becomes a failure record with the exception's message and zero
tokens. The function is total: it never raises. -/
def process_chunk (fs : String → Except String (List Char))
    (cb : CbInput → Except String PyVal) (query : String) (chunk_path : String) : Rec :=
  match fs chunk_path with
  | Except.error e =>
    { chunk_id := extract_chunk_id chunk_path, success := false,
      result := none, error := some e, tokens_processed := 0 }
  | Except.ok chunk_content =>
    let truncated := chunk_content.take 5000
    match cb { chunk_file := chunk_path, chunk_content := truncated,
               query := query, chunk_size := chunk_content.length } with
    | Except.error e =>
      { chunk_id := extract_chunk_id chunk_path, success := false,
        result := none, error := some e, tokens_processed := 0 }
    | Except.ok payload =>
      { chunk_id := extract_chunk_id chunk_path, success := true,
        result := some payload, error := none, tokens_processed := wordCount truncated }

/-- First value for a key in a Python dict literal. -/
def dictGet (kvs : List (String × PyVal)) (k : String) : Option PyVal :=
  (kvs.find? (fun p => p.1 == k)).map Prod.snd

/-- Python `v.get(key, default)`: only dicts have the method; any other
value raises `AttributeError`. -/
def pyGetMethod (v : PyVal) (k : String) (dflt : PyVal) : Except String PyVal :=
  match v with
  | PyVal.pydict kvs => Except.ok ((dictGet kvs k).getD dflt)
  | _ => Except.error "AttributeError: object has no attribute get"

/-- Python `isinstance(v, (int, float))` plus `float(v)` (bools are ints
in Python). -/
def pyNum : PyVal → Option Rat
  | PyVal.pyint n => some (n : Rat)
  | PyVal.pyfloat q => some q
  | PyVal.pybool b => some (if b then 1 else 0)
  | _ => none

/-- The key-probing loop of `_extract_confidence`: first key present with
a numeric value wins; keys present with non-numeric values are skipped. -/
def probeKeys (kvs : List (String × PyVal)) : List String → Rat
  | [] => 0
  | k :: ks =>
    match dictGet kvs k with
    | some v =>
      match pyNum v with
      | some q => q
      | none => probeKeys kvs ks
    | none => probeKeys kvs ks

/-- `ParallelWaveProcessor._extract_confidence(result)`: take
`result.get("result", {}).get("confidence", 0.0)` (raising
`AttributeError` when the stored payload is not a dict); return it if
numeric — note an absent `confidence` key yields the numeric default 0.0
here, short-circuiting the probe loop — else probe the fallback keys. -/
def _extract_confidence (r : Rec) : Except String Rat :=
  match pyGetMethod (r.result.getD (PyVal.pydict [])) "confidence" (PyVal.pyfloat 0) with
  | Except.error e => Except.error e
  | Except.ok c =>
    match pyNum c with
    | some q => Except.ok q
    | none =>
      match r.result with
      | some (PyVal.pydict kvs) =>
        Except.ok (probeKeys kvs ["confidence", "certainty", "score", "probability"])
      | _ => Except.ok 0

/-- The list comprehension of `_has_confident_answer`: count successful
results whose extracted confidence strictly exceeds the threshold,
propagating an extraction exception (`and` short-circuits, so extraction
runs only on successful records). -/
def countHighM (minConf : Rat) : List Rec → Except String Nat
  | [] => Except.ok 0
  | r :: rs =>
    if r.success then
      match _extract_confidence r with
      | Except.error e => Except.error e
      | Except.ok q =>
        match countHighM minConf rs with
        | Except.error e => Except.error e
        | Except.ok n => Except.ok (if minConf < q then n + 1 else n)
    else countHighM minConf rs

/-- `ParallelWaveProcessor._has_confident_answer(results)`: false on an
empty list, else whether the high-confidence count of exactly this result
list reaches `min_high_confidence_chunks`. -/
def _has_confident_answer (minConf : Rat) (minHigh : Int) (results : List Rec) :
    Except String Bool :=
  if results.isEmpty then Except.ok false
  else
    match countHighM minConf results with
    | Except.error e => Except.error e
    | Except.ok n => Except.ok (decide (minHigh ≤ (n : Int)))

/-- Normalize one Python slice index. -/
def sliceIdx (n : Nat) (i : Int) : Nat :=
  (max 0 (min (n : Int) (if i < 0 then (n : Int) + i else i))).toNat

/-- Python slice `xs[a:b]`. -/
def pySlice (xs : List α) (a b : Int) : List α :=
  (xs.take (sliceIdx xs.length b)).drop (sliceIdx xs.length a)

/-- Reorder by a completion schedule: element `i` of the schedule names
the position of the `i`-th call to finish. -/
def applyOrder (ord : List Nat) (xs : List α) : List α :=
  ord.filterMap xs.get?

/-- `ParallelWaveProcessor.process_wave`: truncate the wave to
`max_concurrent` paths, process each chunk, and collect the results in
completion order (`as_completed`), here an explicit schedule `ord`.
`ThreadPoolExecutor` would raise for `max_concurrent ≤ 0`; inside
`process_all_chunks` that case never reaches a wave, and the direct
theorems below assume a positive bound. The executor-level exception
branch of the source is dead code because `process_chunk` never raises. -/
def process_wave (fs : String → Except String (List Char))
    (cb : CbInput → Except String PyVal) (query : String) (mc : Int)
    (ord : List Nat) (chunk_paths : List String) : List Rec :=
  applyOrder ord ((pySlice chunk_paths 0 mc).map (process_chunk fs cb query))

/-- Python `range(start, stop, step)` (raising on a zero step). -/
def pyRange (start stop step : Int) : Except String (List Int) :=
  if step = 0 then Except.error "range() arg 3 must not be zero"
  else
    let n : Nat :=
      if 0 < step then
        if stop ≤ start then 0 else (((stop - start) + step - 1) / step).toNat
      else
        if start ≤ stop then 0 else (((start - stop) + (-step) - 1) / (-step)).toNat
    Except.ok ((List.range n).map (fun i => start + step * i))

/-- The wave partition of `process_all_chunks`:
`all_chunk_paths[i : i + max_concurrent]` for `i` in
`range(0, len(all_chunk_paths), max_concurrent)`. -/
def wavesOf (paths : List String) (mc : Int) : Except String (List (List String)) :=
  (pyRange 0 (paths.length : Int) mc).map
    (fun starts => starts.map (fun i => pySlice paths i (i + mc)))

/-- The wave loop of `process_all_chunks`: process waves in order,
accumulating all results, and stop early when the freshly completed
wave's own results are confident (the source passes `wave_results`, not
`all_results`, to `_has_confident_answer`). -/
def wavesLoop (fs : String → Except String (List Char))
    (cb : CbInput → Except String PyVal) (query : String) (minConf : Rat)
    (minHigh : Int) (mc : Int) (sched : Nat → List Nat) :
    List (List String) → Nat → List Rec → Except String (List Rec × Nat)
  | [], n, acc => Except.ok (acc, n)
  | w :: ws, n, acc =>
    match _has_confident_answer minConf minHigh (process_wave fs cb query mc (sched n) w) with
    | Except.error e => Except.error e
    | Except.ok true => Except.ok (acc ++ process_wave fs cb query mc (sched n) w, n + 1)
    | Except.ok false =>
      wavesLoop fs cb query minConf minHigh mc sched ws (n + 1)
        (acc ++ process_wave fs cb query mc (sched n) w)

/-- The summary dict returned by `process_all_chunks`. -/
structure Summary where
  total_waves : Nat
  processed_waves : Nat
  total_chunks : Nat
  processed_chunks : Nat
  successful_chunks : Nat
  results : List Rec
  tokens_processed : Nat
  early_termination : Bool
  confidence_threshold : Rat

/-- `ParallelWaveProcessor.process_all_chunks`: partition into waves, run
the wave loop, and assemble the summary statistics. -/
def process_all_chunks (fs : String → Except String (List Char))
    (cb : CbInput → Except String PyVal) (query : String) (minConf : Rat)
    (minHigh : Int) (mc : Int) (sched : Nat → List Nat) (paths : List String) :
    Except String Summary :=
  match wavesOf paths mc with
  | Except.error e => Except.error e
  | Except.ok waves =>
    match wavesLoop fs cb query minConf minHigh mc sched waves 0 [] with
    | Except.error e => Except.error e
    | Except.ok (allResults, n) =>
      Except.ok
        { total_waves := waves.length
          processed_waves := n
          total_chunks := paths.length
          processed_chunks := allResults.length
          successful_chunks := (allResults.filter (fun r => r.success)).length
          results := allResults
          tokens_processed := (allResults.map (fun r => r.tokens_processed)).sum
          early_termination := decide (n < waves.length)
          confidence_threshold := minConf }

/-! Specification-side definitions used to compare the scheduler against
the spec's wording and to state the amended claims. -/

/-- Pure count of successful results whose extracted confidence strictly
exceeds the threshold (results whose extraction would raise count as not
confident; on exception-free runs it agrees with `countHighM`). -/
def specCountHigh (minConf : Rat) (rs : List Rec) : Nat :=
  rs.countP (fun r => r.success &&
    (match _extract_confidence r with
     | Except.ok q => decide (minConf < q)
     | Except.error _ => false))

/-- Early-stop decision on one result list: nonempty and the
high-confidence count reaches `min_high_confidence_chunks`. -/
def specConfident (minConf : Rat) (minHigh : Int) (rs : List Rec) : Bool :=
  !rs.isEmpty && decide (minHigh ≤ (specCountHigh minConf rs : Int))

/-- Index of the first true entry. -/
def firstTrueIdx : List Bool → Option Nat
  | [] => none
  | b :: bs => if b then some 0 else (firstTrueIdx bs).map (fun i => i + 1)

/-- Number of waves a stop-at-first-true loop executes. -/
def stopCount (bs : List Bool) : Nat :=
  match firstTrueIdx bs with
  | some i => i + 1
  | none => bs.length

/-- Submission-order results of one wave. -/
def waveRecs (fs : String → Except String (List Char))
    (cb : CbInput → Except String PyVal) (query : String) (mc : Int)
    (w : List String) : List Rec :=
  (pySlice w 0 mc).map (process_chunk fs cb query)

/-- Cumulative early-termination loop following the specification's
words for claim C1: after each wave, count the successful high-confidence
results across all waves so far and stop when that cumulative count
reaches `min_high_confidence_chunks`. -/
def spec_cumulative_executed (minConf : Rat) (minHigh : Int) :
    List (List Rec) → List Rec → Nat → Nat
  | [], _, n => n
  | w :: ws, acc, n =>
    let all := acc ++ w
    if minHigh ≤ (specCountHigh minConf all : Int) then n + 1
    else spec_cumulative_executed minConf minHigh ws all (n + 1)

/-- Wave scheduler modelled on the spec's cumulative wording (the
refinement comparison target for claim C1): number of waves executed. -/
def spec_runAll_cumulative (fs : String → Except String (List Char))
    (cb : CbInput → Except String PyVal) (query : String) (minConf : Rat)
    (minHigh : Int) (mc : Int) (paths : List String) : Except String Nat :=
  (wavesOf paths mc).map (fun waves =>
    spec_cumulative_executed minConf minHigh
      (waves.map (waveRecs fs cb query mc)) [] 0)

/-! Structural lemmas about the assembler. -/

/-- Last element with a default. -/
def lastD : List Nat → Nat → Nat
  | [], d => d
  | x :: l, _ => lastD l x

theorem lastD_mem_cons : ∀ (l : List Nat) (x : Nat), lastD l x ∈ x :: l := by
  intro l
  induction l with
  | nil => intro x; simp [lastD]
  | cons y s ih =>
    intro x
    simp only [lastD]
    exact List.mem_cons_of_mem x (ih y)

theorem head_le_of_pairwise {c : Nat} {t : List Nat} {x : Nat}
    (hp : List.Pairwise (· < ·) (c :: t)) (hx : x ∈ c :: t) : c ≤ x := by
  rcases List.mem_cons.mp hx with h | h
  · omega
  · exact Nat.le_of_lt ((List.pairwise_cons.mp hp).1 x h)

theorem self_le_lastD : ∀ (l : List Nat) (x : Nat),
    List.Pairwise (· < ·) (x :: l) → x ≤ lastD l x := by
  intro l
  induction l with
  | nil => intro x _; simp [lastD]
  | cons y s ih =>
    intro x hp
    simp only [lastD]
    have h1 : x < y := (List.pairwise_cons.mp hp).1 y (by simp)
    have h2 : y ≤ lastD s y := ih y (List.pairwise_cons.mp hp).2
    omega

theorem mem_le_lastD : ∀ (l : List Nat) (d x : Nat),
    List.Pairwise (· < ·) l → x ∈ l → x ≤ lastD l d := by
  intro l
  induction l with
  | nil => intro d x _ hx; simp at hx
  | cons c t ih =>
    intro d x hp hx
    simp only [lastD]
    rcases List.mem_cons.mp hx with h | h
    · subst h; exact self_le_lastD t x hp
    · exact ih c x (List.pairwise_cons.mp hp).2 h

/-- Adjacent Python slices concatenate. -/
theorem slice_append (content : List Char) {a b c : Nat} (hab : a ≤ b) (hbc : b ≤ c) :
    slice content a b ++ slice content b c = slice content a c := by
  unfold slice
  have hdrop : content.drop b = (content.drop a).drop (b - a) := by
    rw [List.drop_drop]
    congr 1
    omega
  rw [hdrop]
  have := List.take_add (content.drop a) (b - a) (c - b)
  rw [(show b - a + (c - b) = c - a by omega)] at this
  exact this.symm

theorem slice_self (content : List Char) (a : Nat) : slice content a a = [] := by
  simp [slice]

/-- Joining the sub-chunks of a split recovers the chunk. -/
theorem splitLargeGo_join (csm1 : Nat) :
    ∀ (fuel : Nat) (rem : List Char) (idx : Nat), rem.length ≤ fuel →
      joinFst (splitLargeGo csm1 fuel rem idx) = rem := by
  intro fuel
  induction fuel with
  | zero =>
    intro rem idx h
    have : rem = [] := List.length_eq_zero.mp (Nat.le_zero.mp h)
    subst this
    simp [splitLargeGo, joinFst]
  | succ n ih =>
    intro rem idx h
    cases rem with
    | nil => simp [splitLargeGo, joinFst]
    | cons c rest =>
      rw [splitLargeGo]
      simp only [joinFst, List.map_cons, List.flatten_cons]
      have hlen : (rest.drop csm1).length ≤ n := by
        simp only [List.length_drop]
        simp only [List.length_cons] at h
        omega
      have ihx := ih (rest.drop csm1) (idx + 1) hlen
      simp only [joinFst] at ihx
      rw [ihx]
      have : rest.drop csm1 = (c :: rest).drop (csm1 + 1) := by simp [List.drop_succ_cons]
      rw [this, List.take_append_drop]

theorem split_large_chunk_join (chunk : List Char) (ms : Nat) (h : 0 < ms) :
    joinFst (_split_large_chunk chunk ms) = chunk := by
  unfold _split_large_chunk
  rw [if_neg (by omega)]
  exact splitLargeGo_join (ms - 1) chunk.length chunk 0 (Nat.le_refl _)

/-- Joining the greedy buckets recovers the concatenation of the inputs. -/
theorem mergeGo_join (target : Nat) :
    ∀ (rest : List (List Char)) (cur : List Char) (k : Nat),
      joinFst (mergeGo target rest cur k) = cur ++ rest.flatten := by
  intro rest
  induction rest with
  | nil =>
    intro cur k
    by_cases hc : cur.isEmpty
    · simp [mergeGo, hc, joinFst, List.isEmpty_iff.mp hc]
    · simp [mergeGo, hc, joinFst]
  | cons c rest ih =>
    intro cur k
    rw [mergeGo]
    by_cases h1 : cur.length + c.length ≤ target
    · rw [if_pos h1, ih]
      simp
    · rw [if_neg h1]
      by_cases h2 : cur.isEmpty
      · rw [if_pos h2, ih]
        simp [List.isEmpty_iff.mp h2]
      · rw [if_neg h2]
        simp only [joinFst, List.map_cons, List.flatten_cons]
        have := ih c (k + 1)
        simp only [joinFst] at this
        rw [this]

/-- Bucket count never exceeds the input chunk count. -/
theorem mergeGo_length_le (target : Nat) :
    ∀ (rest : List (List Char)) (cur : List Char) (k : Nat),
      (mergeGo target rest cur k).length ≤ rest.length + (if cur.isEmpty then 0 else 1) := by
  intro rest
  induction rest with
  | nil =>
    intro cur k
    by_cases hc : cur.isEmpty
    · simp [mergeGo, hc]
    · simp [mergeGo, hc]
  | cons c rest ih =>
    intro cur k
    rw [mergeGo]
    by_cases h1 : cur.length + c.length ≤ target
    · rw [if_pos h1]
      have h := ih (cur ++ c) k
      have hb : (if (cur ++ c).isEmpty then 0 else 1) ≤ 1 := by split <;> omega
      have hb2 : (0 : Nat) ≤ if cur.isEmpty then 0 else 1 := by omega
      simp only [List.length_cons]
      omega
    · rw [if_neg h1]
      by_cases h2 : cur.isEmpty
      · rw [if_pos h2]
        have h := ih c k
        have hb : (if (c : List Char).isEmpty then 0 else 1) ≤ 1 := by split <;> omega
        simp only [List.length_cons, h2, if_true]
        omega
      · rw [if_neg h2]
        have h := ih c (k + 1)
        have hb : (if (c : List Char).isEmpty then 0 else 1) ≤ 1 := by split <;> omega
        simp only [List.length_cons, if_neg h2]
        omega

/-- Bucket indices are consecutive from the starting index. -/
theorem mergeGo_snd (target : Nat) :
    ∀ (rest : List (List Char)) (cur : List Char) (k : Nat),
      (mergeGo target rest cur k).map Prod.snd =
        natsFrom k (mergeGo target rest cur k).length := by
  intro rest
  induction rest with
  | nil =>
    intro cur k
    by_cases hc : cur.isEmpty <;> simp [mergeGo, hc, natsFrom]
  | cons c rest ih =>
    intro cur k
    rw [mergeGo]
    by_cases h1 : cur.length + c.length ≤ target
    · rw [if_pos h1]; exact ih (cur ++ c) k
    · rw [if_neg h1]
      by_cases h2 : cur.isEmpty
      · rw [if_pos h2]; exact ih c k
      · rw [if_neg h2]
        simp only [List.map_cons, List.length_cons, natsFrom]
        rw [ih c (k + 1)]

theorem insertSortedDedup_mem (x : Nat) : ∀ (l : List Nat) (a : Nat),
    a ∈ insertSortedDedup x l ↔ a = x ∨ a ∈ l := by
  intro l
  induction l with
  | nil => intro a; simp [insertSortedDedup]
  | cons y ys ih =>
    intro a
    rw [insertSortedDedup]
    by_cases h1 : x < y
    · rw [if_pos h1]; simp
    · rw [if_neg h1]
      by_cases h2 : x = y
      · rw [if_pos h2]; subst h2; simp
      · rw [if_neg h2]; simp [ih]; tauto

theorem insertSortedDedup_pairwise (x : Nat) : ∀ (l : List Nat),
    List.Pairwise (· < ·) l → List.Pairwise (· < ·) (insertSortedDedup x l) := by
  intro l
  induction l with
  | nil => intro _; simp [insertSortedDedup]
  | cons y ys ih =>
    intro hp
    rw [insertSortedDedup]
    rcases List.pairwise_cons.mp hp with ⟨hy, hys⟩
    by_cases h1 : x < y
    · rw [if_pos h1]
      refine List.pairwise_cons.mpr ⟨?_, hp⟩
      intro a ha
      rcases List.mem_cons.mp ha with h | h
      · omega
      · have := hy a h; omega
    · rw [if_neg h1]
      by_cases h2 : x = y
      · rw [if_pos h2]; exact hp
      · rw [if_neg h2]
        refine List.pairwise_cons.mpr ⟨?_, ih hys⟩
        intro a ha
        rcases (insertSortedDedup_mem x ys a).mp ha with h | h
        · subst h; omega
        · exact hy a h

theorem sortedDedup_pairwise (l : List Nat) : List.Pairwise (· < ·) (sortedDedup l) := by
  unfold sortedDedup
  induction l with
  | nil => simp
  | cons x xs ih => exact insertSortedDedup_pairwise x _ ih

theorem sortedDedup_mem (l : List Nat) (a : Nat) : a ∈ sortedDedup l ↔ a ∈ l := by
  unfold sortedDedup
  induction l with
  | nil => simp
  | cons x xs ih =>
    simp only [List.foldr_cons]
    rw [insertSortedDedup_mem]
    simp [ih]

theorem head?_mem {α : Type} {l : List α} {a : α} (h : l.head? = some a) : a ∈ l := by
  cases l with
  | nil => simp at h
  | cons x xs =>
    simp only [List.head?_cons, Option.some.injEq] at h
    subst h
    simp

theorem marksOf_le (pred : List Char → Nat → Bool) (s : List Char) :
    ∀ x ∈ marksOf pred s, x ≤ s.length := by
  intro x hx
  unfold marksOf at hx
  have := List.mem_range.mp (List.mem_of_mem_filter hx)
  omega

theorem pyFindFrom_cases (hay needle : List Char) (start : Int) :
    pyFindFrom hay needle start = -1 ∨
    (0 ≤ pyFindFrom hay needle start ∧ (pyFindFrom hay needle start).toNat ≤ hay.length) := by
  unfold pyFindFrom
  cases hh : ((List.range (hay.length + 1)).filter
      (fun (p : Nat) => decide (start ≤ (p : Int)) && occursAt hay needle p)).head? with
  | none => left; rfl
  | some p =>
    right
    have hp2 : p ∈ List.range (hay.length + 1) := List.mem_of_mem_filter (head?_mem hh)
    have := List.mem_range.mp hp2
    refine ⟨Int.ofNat_nonneg p, ?_⟩
    simp only [Int.toNat_ofNat]
    omega

theorem jsonArrMarksGo_le (content : List Char) :
    ∀ (items : List JVal) (i : Nat) (off : Int) (x : Nat),
      x ∈ jsonArrMarksGo content items i off → x ≤ content.length := by
  intro items
  induction items with
  | nil => intro i off x hx; simp [jsonArrMarksGo] at hx
  | cons item rest ih =>
    intro i off x hx
    simp only [jsonArrMarksGo] at hx
    split at hx
    · rcases List.mem_cons.mp hx with h | h
      · subst h
        rcases pyFindFrom_cases content (json_dumps item) off with hc | hc
        · rename_i hcond
          exact absurd hc hcond.1
        · exact hc.2
      · exact ih (i + 1) _ x h
    · exact ih (i + 1) _ x hx

theorem jsonObjMarksGo_le (content : List Char) :
    ∀ (kvs : List (List Char × JVal)) (i : Nat) (off : Int) (x : Nat),
      x ∈ jsonObjMarksGo content kvs i off → x ≤ content.length := by
  intro kvs
  induction kvs with
  | nil => intro i off x hx; simp [jsonObjMarksGo] at hx
  | cons kv rest ih =>
    intro i off x hx
    simp only [jsonObjMarksGo] at hx
    split at hx
    · rcases List.mem_cons.mp hx with h | h
      · subst h
        rcases pyFindFrom_cases content (kvNeedle kv.1 kv.2) off with hc | hc
        · rename_i hcond
          exact absurd hc hcond.1
        · exact hc.2
      · exact ih (i + 1) _ x h
    · exact ih (i + 1) _ x hx

theorem find_semantic_boundaries_pairwise (content : List Char) (ct : ContentType) :
    List.Pairwise (· < ·) (find_semantic_boundaries content ct) := by
  unfold find_semantic_boundaries
  exact sortedDedup_pairwise _

theorem find_semantic_boundaries_zero_mem (content : List Char) (ct : ContentType) :
    0 ∈ find_semantic_boundaries content ct := by
  unfold find_semantic_boundaries
  rw [sortedDedup_mem]
  simp

theorem find_semantic_boundaries_len_mem (content : List Char) (ct : ContentType) :
    content.length ∈ find_semantic_boundaries content ct := by
  unfold find_semantic_boundaries
  rw [sortedDedup_mem]
  simp

theorem find_semantic_boundaries_le (content : List Char) (ct : ContentType) :
    ∀ x ∈ find_semantic_boundaries content ct, x ≤ content.length := by
  intro x hx
  unfold find_semantic_boundaries at hx
  rw [sortedDedup_mem] at hx
  rcases List.mem_cons.mp hx with h | h
  · omega
  · rcases List.mem_append.mp h with h | h
    · cases ct with
      | JSON =>
        simp only at h
        cases hj : json_loads content with
        | none =>
          rw [hj] at h
          exact marksOf_le _ _ x h
        | some v =>
          rw [hj] at h
          cases v with
          | jarr items => exact jsonArrMarksGo_le content items 0 0 x h
          | jobj kvs => exact jsonObjMarksGo_le content kvs 0 0 x h
          | null => simp at h
          | jbool b => simp at h
          | jnum a b c => simp at h
          | jstr s => simp at h
      | MARKDOWN => exact marksOf_le _ _ x h
      | LOG => exact marksOf_le _ _ x h
      | CODE =>
        simp only at h
        rcases List.mem_append.mp h with h | h
        · exact marksOf_le _ _ x h
        · exact marksOf_le _ _ x h
      | TEXT => exact marksOf_le _ _ x h
    · simp at h
      omega

/-- The boundary list is `0 :: t` with `t` ending at the content length. -/
theorem boundaries_shape (content : List Char) (ct : ContentType) :
    ∃ t, find_semantic_boundaries content ct = 0 :: t ∧ lastD t 0 = content.length := by
  have hp := find_semantic_boundaries_pairwise content ct
  have h0 := find_semantic_boundaries_zero_mem content ct
  have hl := find_semantic_boundaries_len_mem content ct
  have hle := find_semantic_boundaries_le content ct
  cases hb : find_semantic_boundaries content ct with
  | nil => rw [hb] at h0; simp at h0
  | cons c t =>
    rw [hb] at hp h0 hl
    have hc0 : c = 0 := by
      have := head_le_of_pairwise hp h0
      omega
    subst hc0
    refine ⟨t, rfl, ?_⟩
    have h1 : content.length ≤ lastD t 0 := by
      have := mem_le_lastD (0 :: t) 0 content.length hp hl
      simpa [lastD] using this
    have h2 : lastD t 0 ≤ content.length := by
      have hmem : lastD t 0 ∈ 0 :: t := lastD_mem_cons t 0
      have := hle (lastD t 0) (hb ▸ hmem)
      exact this
    omega

theorem joinFst_append (l1 l2 : List (List Char × Nat)) :
    joinFst (l1 ++ l2) = joinFst l1 ++ joinFst l2 := by
  simp [joinFst]

theorem buildChunks_nil (content : List Char) (cs k : Nat) :
    buildChunks content cs [] k = [] := by
  rw [buildChunks.eq_def]

theorem buildChunks_single (content : List Char) (cs b k : Nat) :
    buildChunks content cs [b] k = [] := by
  rw [buildChunks.eq_def]

/-- Walking a strictly increasing boundary list yields a partition of the
spanned slice. -/
theorem buildChunks_join (content : List Char) (cs : Nat) (hcs : 0 < cs) :
    ∀ (n : Nat) (bs : List Nat) (b0 k : Nat), bs.length ≤ n →
      List.Pairwise (· < ·) (b0 :: bs) →
      joinFst (buildChunks content cs (b0 :: bs) k) = slice content b0 (lastD bs b0) := by
  intro n
  induction n with
  | zero =>
    intro bs b0 k h _
    have : bs = [] := List.length_eq_zero.mp (Nat.le_zero.mp h)
    subst this
    simp [buildChunks_single, joinFst, lastD, slice_self]
  | succ n ih =>
    intro bs b0 k h hp
    cases bs with
    | nil => simp [buildChunks_single, joinFst, lastD, slice_self]
    | cons b1 rest =>
      have hb01 : b0 < b1 := (List.pairwise_cons.mp hp).1 b1 (by simp)
      have hp1 : List.Pairwise (· < ·) (b1 :: rest) := (List.pairwise_cons.mp hp).2
      cases rest with
      | nil =>
        rw [buildChunks]
        simp only [lastD]
        by_cases hsplit : cs * 2 < (slice content b0 b1).length
        · rw [if_pos hsplit, buildChunks_single]
          rw [joinFst_append, split_large_chunk_join _ _ hcs]
          simp [joinFst]
        · rw [if_neg hsplit]
          by_cases hsmall : 2 * (slice content b0 b1).length < cs
          · rw [if_pos hsmall]
            simp [joinFst]
          · rw [if_neg hsmall, buildChunks_single]
            simp [joinFst]
      | cons b2 rest2 =>
        have hp2 : List.Pairwise (· < ·) (b2 :: rest2) := (List.pairwise_cons.mp hp1).2
        have hb12 : b1 < b2 := (List.pairwise_cons.mp hp1).1 b2 (by simp)
        have hb02 : b0 < b2 := (List.pairwise_cons.mp hp).1 b2 (by simp)
        have hlast1 : b1 ≤ lastD (b2 :: rest2) b1 := self_le_lastD (b2 :: rest2) b1 hp1
        have hlast2 : b2 ≤ lastD rest2 b2 := self_le_lastD rest2 b2 hp2
        have hlen1 : (b2 :: rest2).length ≤ n := by
          simp only [List.length_cons] at h ⊢
          omega
        have hlen2 : rest2.length ≤ n := by
          simp only [List.length_cons] at h
          omega
        rw [buildChunks]
        simp only [lastD]
        by_cases hsplit : cs * 2 < (slice content b0 b1).length
        · rw [if_pos hsplit]
          rw [joinFst_append, split_large_chunk_join _ _ hcs]
          rw [ih (b2 :: rest2) b1 _ hlen1 hp1]
          simp only [lastD]
          exact slice_append content (Nat.le_of_lt hb01)
            (by simpa [lastD] using hlast1)
        · rw [if_neg hsplit]
          by_cases hsmall : 2 * (slice content b0 b1).length < cs
          · rw [if_pos hsmall]
            simp only [joinFst, List.map_cons, List.flatten_cons]
            have hrec := ih rest2 b2 (k + 1) hlen2 hp2
            simp only [joinFst] at hrec
            rw [hrec]
            exact slice_append content (Nat.le_of_lt hb02) hlast2
          · rw [if_neg hsmall]
            simp only [joinFst, List.map_cons, List.flatten_cons]
            have hrec := ih (b2 :: rest2) b1 (k + 1) hlen1 hp1
            simp only [joinFst] at hrec
            rw [hrec]
            simp only [lastD]
            exact slice_append content (Nat.le_of_lt hb01)
              (by simpa [lastD] using hlast1)

theorem spansFit_tail (content : List Char) (cs : Nat) :
    ∀ (x : Nat) (l : List Nat), spansFit content cs (x :: l) = true →
      spansFit content cs l = true := by
  intro x l h
  cases l with
  | nil => simp [spansFit]
  | cons y r =>
    rw [spansFit, Bool.and_eq_true] at h
    exact h.2

/-- When every span fits, indices written by the walk are consecutive. -/
theorem buildChunks_snd (content : List Char) (cs : Nat) :
    ∀ (n : Nat) (bs : List Nat) (k : Nat), bs.length ≤ n → spansFit content cs bs = true →
      (buildChunks content cs bs k).map Prod.snd =
        natsFrom k (buildChunks content cs bs k).length := by
  intro n
  induction n with
  | zero =>
    intro bs k h _
    have : bs = [] := List.length_eq_zero.mp (Nat.le_zero.mp h)
    subst this
    simp [buildChunks, natsFrom]
  | succ n ih =>
    intro bs k h hs
    match bs with
    | [] => simp [buildChunks_nil, natsFrom]
    | [b0] => simp [buildChunks_single, natsFrom]
    | b0 :: b1 :: rest =>
      have hfit : (slice content b0 b1).length ≤ cs * 2 := by
        rw [spansFit, Bool.and_eq_true] at hs
        exact of_decide_eq_true hs.1
      cases rest with
      | nil =>
        rw [buildChunks]
        rw [if_neg (by omega)]
        by_cases hsmall : 2 * (slice content b0 b1).length < cs
        · rw [if_pos hsmall]
          simp [natsFrom]
        · rw [if_neg hsmall, buildChunks_single]
          simp [natsFrom]
      | cons b2 rest2 =>
        have hs2 : spansFit content cs (b2 :: rest2) = true :=
          spansFit_tail content cs b1 (b2 :: rest2)
            (spansFit_tail content cs b0 (b1 :: b2 :: rest2) hs)
        have hs1 : spansFit content cs (b1 :: b2 :: rest2) = true :=
          spansFit_tail content cs b0 (b1 :: b2 :: rest2) hs
        have hlen1 : (b2 :: rest2).length ≤ n := by
          simp only [List.length_cons] at h ⊢
          omega
        have hlen2 : (b1 :: b2 :: rest2).length ≤ n := by
          simp only [List.length_cons] at h ⊢
          omega
        rw [buildChunks]
        rw [if_neg (by omega)]
        by_cases hsmall : 2 * (slice content b0 b1).length < cs
        · rw [if_pos hsmall]
          simp only [List.map_cons, List.length_cons, natsFrom]
          rw [ih (b2 :: rest2) (k + 1) hlen1 hs2]
        · rw [if_neg hsmall]
          simp only [List.map_cons, List.length_cons, natsFrom]
          rw [ih (b1 :: b2 :: rest2) (k + 1) hlen2 hs1]

/-! Claim theorems for the assembler (C2, C3, C5). -/

/-- Plain text with five paragraph-separated spans. -/
def exTextMulti : List Char := ("aa\n\nbb\n\ncc\n\ndd\n\nee").toList

/-- Plain text whose second span exceeds twice a tiny target size. -/
def exTextSplit : List Char := ("aa\n\nbbbbbb").toList

/-- Plain text with two tiny spans. -/
def exTextSmall : List Char := ("aa\n\nbb").toList

/-- A chunker configured with a tiny target size. -/
def chunkerTiny : AdaptiveChunker := ⟨2, 50000, 200000, 10000, []⟩

/-- A chunker with the constructor's default sizes. -/
def chunkerDefault : AdaptiveChunker := ⟨50000, 50000, 200000, 10000, []⟩

/-- C2: for every input text and every choice of `max_chunks` (supplied or
absent), concatenating the chunks returned by `create_adaptive_chunks` in
list order reproduces the input exactly, in both the semantic-boundary
path and the greedy-bucket fallback path (for any positive target chunk
size; at size zero Python raises `ValueError` instead of returning). -/
theorem create_adaptive_chunks_lossless (a : AdaptiveChunker) (content : List Char)
    (mc : Option Nat) (h : 0 < a.chunk_size) :
    joinFst (create_adaptive_chunks a content mc) = content := by
  obtain ⟨t, hbs, hlast⟩ := boundaries_shape content (detect_content_type content)
  have hp := find_semantic_boundaries_pairwise content (detect_content_type content)
  rw [hbs] at hp
  have hjoin : joinFst (buildChunks content a.chunk_size
      (find_semantic_boundaries content (detect_content_type content)) 0) = content := by
    rw [hbs]
    rw [buildChunks_join content a.chunk_size h t.length t 0 0 le_rfl hp]
    rw [hlast]
    simp [slice]
  cases mc with
  | none => exact hjoin
  | some m =>
    simp only [create_adaptive_chunks]
    by_cases hc : 0 < m ∧ m < (buildChunks content a.chunk_size
        (find_semantic_boundaries content (detect_content_type content)) 0).length
    · rw [if_pos hc]
      rw [mergeGo_join]
      simpa [joinFst] using hjoin
    · rw [if_neg hc]
      exact hjoin

/-- Witness for C2 at a concrete input, exercising the fallback path. -/
theorem create_adaptive_chunks_lossless_witness :
    0 < chunkerTiny.chunk_size ∧
      joinFst (create_adaptive_chunks chunkerTiny exTextMulti (some 3)) = exTextMulti :=
  ⟨by decide, create_adaptive_chunks_lossless chunkerTiny exTextMulti (some 3) (by decide)⟩

/-- C3 counterexample: with target size 2 and `max_chunks = 3`, the
18-character five-span text yields four chunks, exceeding the cap. -/
theorem create_adaptive_chunks_exceeds_cap_cx :
    3 < (create_adaptive_chunks chunkerTiny exTextMulti (some 3)).length := by decide

/-- C3 amended: the greedy bucket pass never increases the chunk count —
the capped result has at most as many chunks as the uncapped one — but the
`max_chunks` bound itself is not guaranteed. -/
theorem create_adaptive_chunks_cap_best_effort (a : AdaptiveChunker) (content : List Char)
    (m : Nat) :
    (create_adaptive_chunks a content (some m)).length ≤
      (create_adaptive_chunks a content none).length := by
  show (create_adaptive_chunks a content (some m)).length ≤
    (buildChunks content a.chunk_size
      (find_semantic_boundaries content (detect_content_type content)) 0).length
  simp only [create_adaptive_chunks]
  by_cases hc : 0 < m ∧ m < (buildChunks content a.chunk_size
      (find_semantic_boundaries content (detect_content_type content)) 0).length
  · rw [if_pos hc]
    have h := mergeGo_length_le (content.length / m)
      ((buildChunks content a.chunk_size
        (find_semantic_boundaries content (detect_content_type content)) 0).map Prod.fst) [] 0
    simpa using h
  · rw [if_neg hc]

/-- C5 counterexample: splitting an oversized span restarts indices at
zero, so the list `[0, 0, 1, 2, 3]` of carried indices differs from the
positional `[0, 1, 2, 3, 4]`. -/
theorem create_adaptive_chunks_index_cx :
    ¬ ((create_adaptive_chunks chunkerTiny exTextSplit none).map Prod.snd =
       natsFrom 0 (create_adaptive_chunks chunkerTiny exTextSplit none).length) := by decide

/-- C5 amended: each chunk's index equals its list position whenever no
boundary span exceeds twice the target size (so the split branch never
runs); sub-chunks of an oversized span are instead numbered 0, 1, 2, …
within that span. The greedy bucket pass always numbers positionally. -/
theorem create_adaptive_chunks_indices_positional (a : AdaptiveChunker) (content : List Char)
    (mc : Option Nat)
    (h : spansFit content a.chunk_size
        (find_semantic_boundaries content (detect_content_type content)) = true) :
    (create_adaptive_chunks a content mc).map Prod.snd =
      natsFrom 0 (create_adaptive_chunks a content mc).length := by
  have hbuild := buildChunks_snd content a.chunk_size
    (find_semantic_boundaries content (detect_content_type content)).length
    (find_semantic_boundaries content (detect_content_type content)) 0 le_rfl h
  cases mc with
  | none => exact hbuild
  | some m =>
    simp only [create_adaptive_chunks]
    by_cases hc : 0 < m ∧ m < (buildChunks content a.chunk_size
        (find_semantic_boundaries content (detect_content_type content)) 0).length
    · rw [if_pos hc]
      exact mergeGo_snd (content.length / m) _ [] 0
    · rw [if_neg hc]
      exact hbuild

/-- Witness for the amended C5 at a concrete input with no oversized
span. -/
theorem create_adaptive_chunks_indices_positional_witness :
    spansFit exTextSmall chunkerDefault.chunk_size
        (find_semantic_boundaries exTextSmall (detect_content_type exTextSmall)) = true ∧
      (create_adaptive_chunks chunkerDefault exTextSmall none).map Prod.snd =
        natsFrom 0 (create_adaptive_chunks chunkerDefault exTextSmall none).length :=
  ⟨by decide,
    create_adaptive_chunks_indices_positional chunkerDefault exTextSmall none (by decide)⟩

/-! Claim theorems for the feedback controller (C7). -/

theorem adjust_chunk_size_min_eq (a : AdaptiveChunker) (t : Int) :
    (adjust_chunk_size a t).min_chunk_size = a.min_chunk_size := by
  unfold adjust_chunk_size
  split_ifs <;> rfl

theorem adjust_chunk_size_max_eq (a : AdaptiveChunker) (t : Int) :
    (adjust_chunk_size a t).max_chunk_size = a.max_chunk_size := by
  unfold adjust_chunk_size
  split_ifs <;> rfl

theorem adjust_chunk_size_step (a : AdaptiveChunker) (t : Int)
    (h1 : a.min_chunk_size ≤ a.chunk_size) (h2 : a.chunk_size ≤ a.max_chunk_size) :
    a.min_chunk_size ≤ (adjust_chunk_size a t).chunk_size ∧
      (adjust_chunk_size a t).chunk_size ≤ a.max_chunk_size := by
  have hcancel : a.chunk_size * 10 / 10 = a.chunk_size :=
    Nat.mul_div_cancel a.chunk_size (by omega)
  have hgrow : a.chunk_size ≤ a.chunk_size * 12 / 10 := by
    have hdiv : a.chunk_size * 10 / 10 ≤ a.chunk_size * 12 / 10 :=
      Nat.div_le_div_right (Nat.mul_le_mul_left a.chunk_size (by omega))
    omega
  have hshrink : a.chunk_size * 7 / 10 ≤ a.chunk_size := by
    have hdiv : a.chunk_size * 7 / 10 ≤ a.chunk_size * 10 / 10 :=
      Nat.div_le_div_right (Nat.mul_le_mul_left a.chunk_size (by omega))
    omega
  unfold adjust_chunk_size
  split_ifs with hfast hslow
  · exact ⟨le_min (le_trans h1 hgrow) (le_trans h1 h2), min_le_right _ _⟩
  · exact ⟨le_max_right _ _, max_le (le_trans hshrink h2) (le_trans h1 h2)⟩
  · exact ⟨h1, h2⟩

/-- C7 counterexample: the constructor never clamps, so an instance
created with `chunk_size` above `max_chunk_size` stays out of range even
after an `adjust_chunk_size` call (the 10-second observation takes the
no-change branch). -/
theorem adjust_chunk_size_out_of_range_cx :
    ¬ ((adjust_chunk_size ⟨300000, 50000, 200000, 10000, []⟩ 10000).chunk_size ≤
        (adjust_chunk_size ⟨300000, 50000, 200000, 10000, []⟩ 10000).max_chunk_size) := by
  decide

/-- C7 amended: for every instance whose initial target size lies within
`[min_chunk_size, max_chunk_size]` and every sequence of observed
durations, the target size stays within that interval after every
`adjust_chunk_size` call (each step preserves the interval, so every
prefix of the fold satisfies it). -/
theorem adjust_chunk_size_stays_in_range (a : AdaptiveChunker) (ts : List Int)
    (h1 : a.min_chunk_size ≤ a.chunk_size) (h2 : a.chunk_size ≤ a.max_chunk_size) :
    a.min_chunk_size ≤ (ts.foldl adjust_chunk_size a).chunk_size ∧
      (ts.foldl adjust_chunk_size a).chunk_size ≤ a.max_chunk_size := by
  induction ts generalizing a with
  | nil => exact ⟨h1, h2⟩
  | cons t ts ih =>
    have hstep := adjust_chunk_size_step a t h1 h2
    have hmin := adjust_chunk_size_min_eq a t
    have hmax := adjust_chunk_size_max_eq a t
    have := ih (adjust_chunk_size a t) (by rw [hmin]; exact hstep.1) (by rw [hmax]; exact hstep.2)
    simp only [List.foldl_cons]
    rw [hmin, hmax] at this
    exact this

/-- Witness for the amended C7 on the alternating fast/slow sequence of
the spec's convergence test. -/
theorem adjust_chunk_size_stays_in_range_witness :
    chunkerDefault.min_chunk_size ≤ chunkerDefault.chunk_size ∧
      chunkerDefault.chunk_size ≤ chunkerDefault.max_chunk_size ∧
      chunkerDefault.min_chunk_size ≤
        (([1000, 20000, 1000, 20000, 1000] : List Int).foldl adjust_chunk_size
          chunkerDefault).chunk_size ∧
      (([1000, 20000, 1000, 20000, 1000] : List Int).foldl adjust_chunk_size
          chunkerDefault).chunk_size ≤ chunkerDefault.max_chunk_size := by
  refine ⟨by decide, by decide, ?_, ?_⟩
  · exact (adjust_chunk_size_stays_in_range chunkerDefault _ (by decide) (by decide)).1
  · exact (adjust_chunk_size_stays_in_range chunkerDefault _ (by decide) (by decide)).2

/-! Claim theorems for the worker and the scheduler interface
(C8, C9, C10). -/

/-- File system mapping each path to its own name as content. -/
def cxFs : String → Except String (List Char) := fun p => Except.ok p.toList

/-- Callback returning an empty dict payload. -/
def cxCb : CbInput → Except String PyVal := fun _ => Except.ok (PyVal.pydict [])

/-- C10: chunks reach the scheduler as file paths and `process_chunk`
never raises (it is total by construction): a failing file read — a
nonexistent file included — or a failing callback is converted into a
record with `success = false`, the exception's message as `error` and
`tokens_processed = 0`; a successful callback yields a success record. -/
theorem process_chunk_captures_failures (fs : String → Except String (List Char))
    (cb : CbInput → Except String PyVal) (query : String) (path : String) :
    (∀ e, fs path = Except.error e →
       process_chunk fs cb query path =
         { chunk_id := extract_chunk_id path, success := false, result := none,
           error := some e, tokens_processed := 0 }) ∧
    (∀ content e, fs path = Except.ok content →
       cb { chunk_file := path, chunk_content := content.take 5000, query := query,
            chunk_size := content.length } = Except.error e →
       process_chunk fs cb query path =
         { chunk_id := extract_chunk_id path, success := false, result := none,
           error := some e, tokens_processed := 0 }) ∧
    (∀ content payload, fs path = Except.ok content →
       cb { chunk_file := path, chunk_content := content.take 5000, query := query,
            chunk_size := content.length } = Except.ok payload →
       process_chunk fs cb query path =
         { chunk_id := extract_chunk_id path, success := true, result := some payload,
           error := none, tokens_processed := wordCount (content.take 5000) }) := by
  refine ⟨?_, ?_, ?_⟩
  · intro e h
    unfold process_chunk
    rw [h]
  · intro content e h1 h2
    unfold process_chunk
    rw [h1]
    simp only [h2]
  · intro content payload h1 h2
    unfold process_chunk
    rw [h1]
    simp only [h2]

/-- Witness for C10 at a file system raising on the requested path. -/
theorem process_chunk_captures_failures_witness :
    process_chunk (fun _ => Except.error "boom") cxCb "q" "chunks/p.txt" =
      { chunk_id := "p", success := false, result := none,
        error := some "boom", tokens_processed := 0 } := by
  have h := (process_chunk_captures_failures (fun _ => Except.error "boom")
    cxCb "q" "chunks/p.txt").1 "boom" rfl
  rw [h]
  rfl

/-- C8 counterexample: a negative `max_concurrent` is not surfaced as an
error — the scheduler silently returns a summary with no waves and no
results instead of failing. -/
theorem neg_concurrency_no_error_cx :
    (process_all_chunks cxFs cxCb "q" (mkRat 4 5) 3 (-1) (fun _ => []) ["a"]).map
        Summary.processed_chunks = Except.ok 0 ∧
    (process_all_chunks cxFs cxCb "q" (mkRat 4 5) 3 (-1) (fun _ => []) ["a"]).map
        Summary.total_chunks = Except.ok 1 ∧
    (process_all_chunks cxFs cxCb "q" (mkRat 4 5) 3 (-1) (fun _ => []) ["a"]).map
        (fun s => s.results.length) = Except.ok 0 := by
  refine ⟨rfl, rfl, rfl⟩

/-- C8 amended: with `max_concurrent = 0` the wave partition raises
Python's `range` step error before any chunk is dispatched; with a
negative `max_concurrent` no error is raised — the partition is empty, so
the scheduler returns a summary with zero waves, zero processed chunks
and an empty result list, again without dispatching any chunk. -/
theorem nonpositive_concurrency_behavior (fs : String → Except String (List Char))
    (cb : CbInput → Except String PyVal) (query : String) (minConf : Rat)
    (minHigh : Int) (sched : Nat → List Nat) (paths : List String) (mc : Int) :
    (mc = 0 → process_all_chunks fs cb query minConf minHigh mc sched paths =
        Except.error "range() arg 3 must not be zero") ∧
    (mc < 0 → process_all_chunks fs cb query minConf minHigh mc sched paths =
        Except.ok { total_waves := 0, processed_waves := 0, total_chunks := paths.length,
                    processed_chunks := 0, successful_chunks := 0, results := [],
                    tokens_processed := 0, early_termination := false,
                    confidence_threshold := minConf }) := by
  constructor
  · intro h
    subst h
    rfl
  · intro h
    have hrange : pyRange 0 (paths.length : Int) mc = Except.ok [] := by
      unfold pyRange
      rw [if_neg (by omega), if_neg (by omega), if_pos (by omega)]
      rfl
    have hwaves : wavesOf paths mc = Except.ok [] := by
      unfold wavesOf
      rw [hrange]
      rfl
    unfold process_all_chunks
    rw [hwaves]
    rfl

/-- Witness for the amended C8 at `max_concurrent = -1`. -/
theorem nonpositive_concurrency_behavior_witness :
    process_all_chunks cxFs cxCb "q" (mkRat 4 5) 3 (-1) (fun _ => []) ["a"] =
      Except.ok { total_waves := 0, processed_waves := 0, total_chunks := 1,
                  processed_chunks := 0, successful_chunks := 0, results := [],
                  tokens_processed := 0, early_termination := false,
                  confidence_threshold := mkRat 4 5 } :=
  (nonpositive_concurrency_behavior cxFs cxCb "q" (mkRat 4 5) 3 (fun _ => []) ["a"] (-1)).2
    (by decide)

/-- Chunk ids of the result list of a two-chunk one-wave run under a
given completion schedule (empty on an error, which does not occur). -/
def runChunkIds (sched : Nat → List Nat) : List String :=
  match process_all_chunks cxFs cxCb "q" (mkRat 4 5) 3 5 sched ["a", "b"] with
  | Except.ok s => s.results.map Rec.chunk_id
  | Except.error _ => []

/-- C9 counterexample: two runs over the same chunks and answer function
that differ only in intra-wave completion order produce different
`results` lists — the scheduler appends in completion order
(`as_completed`), not submission order. -/
theorem results_follow_completion_order_cx :
    runChunkIds (fun _ => [0, 1]) = ["a", "b"] ∧
    runChunkIds (fun _ => [1, 0]) = ["b", "a"] ∧
    (["a", "b"] : List String) ≠ ["b", "a"] := by
  refine ⟨by decide, by decide, by decide⟩

theorem filterMap_get?_range {α : Type} (rs : List α) :
    (List.range rs.length).filterMap rs.get? = rs := by
  induction rs with
  | nil => rfl
  | cons a rs ih =>
    rw [List.length_cons, List.range_succ_eq_map, List.filterMap_cons, List.filterMap_map]
    have hfun : ((a :: rs).get? ∘ Nat.succ) = rs.get? := by
      funext i
      rfl
    rw [hfun, ih]
    rfl

/-- C9 amended: for every valid completion schedule (a permutation of the
wave's positions), the wave's result list is a permutation of the
submission-order results — same multiset, but the order tracks completion
order and need not be identical across schedules. -/
theorem process_wave_perm_of_submission (fs : String → Except String (List Char))
    (cb : CbInput → Except String PyVal) (query : String) (mc : Int)
    (ord : List Nat) (paths : List String)
    (h : ord.Perm (List.range ((pySlice paths 0 mc).map (process_chunk fs cb query)).length)) :
    (process_wave fs cb query mc ord paths).Perm
      ((pySlice paths 0 mc).map (process_chunk fs cb query)) := by
  unfold process_wave applyOrder
  have h1 := h.filterMap (((pySlice paths 0 mc).map (process_chunk fs cb query)).get?)
  rw [filterMap_get?_range] at h1
  exact h1

/-- Witness for the amended C9 on a two-chunk wave completing in reverse
order. -/
theorem process_wave_perm_of_submission_witness :
    ([1, 0] : List Nat).Perm
        (List.range ((pySlice ["a", "b"] 0 5).map (process_chunk cxFs cxCb "q")).length) ∧
      (process_wave cxFs cxCb "q" 5 [1, 0] ["a", "b"]).Perm
        ((pySlice ["a", "b"] 0 5).map (process_chunk cxFs cxCb "q")) := by
  have hlen : ((pySlice ["a", "b"] 0 5).map (process_chunk cxFs cxCb "q")).length = 2 := rfl
  have hperm : ([1, 0] : List Nat).Perm
      (List.range ((pySlice ["a", "b"] 0 5).map (process_chunk cxFs cxCb "q")).length) := by
    rw [hlen]
    decide
  exact ⟨hperm, process_wave_perm_of_submission cxFs cxCb "q" 5 [1, 0] ["a", "b"] hperm⟩

/-! Claim theorems for the confidence extractor (C4) and the
early-termination rule (C1). -/

/-- C4 (code bug): the confidence extractor diverges from its contract on
three counts — a payload carrying only `certainty` yields `0.0` because
the `.get` default `0.0` is numeric and short-circuits the probe loop
(the fallback keys are dead code when `confidence` is absent); a non-dict
payload raises `AttributeError` instead of returning `0.0`; and a numeric
`confidence` outside `[0, 1]` is returned unclamped. -/
theorem extract_confidence_divergence_cx :
    _extract_confidence
        { chunk_id := "c1", success := true,
          result := some (PyVal.pydict [("certainty", PyVal.pyfloat (mkRat 9 10))]),
          error := none, tokens_processed := 0 } = Except.ok 0 ∧
    mkRat 9 10 ≠ 0 ∧
    _extract_confidence
        { chunk_id := "c2", success := true, result := some (PyVal.pylist []),
          error := none, tokens_processed := 0 } =
      Except.error "AttributeError: object has no attribute get" ∧
    _extract_confidence
        { chunk_id := "c3", success := true,
          result := some (PyVal.pydict [("confidence", PyVal.pyfloat (mkRat 3 2))]),
          error := none, tokens_processed := 0 } = Except.ok (mkRat 3 2) ∧
    ¬ (mkRat 3 2 ≤ 1) := by
  refine ⟨rfl, by decide, rfl, rfl, by decide⟩

theorem countHighM_ok (minConf : Rat) :
    ∀ (rs : List Rec) (n : Nat), countHighM minConf rs = Except.ok n →
      n = specCountHigh minConf rs := by
  intro rs
  induction rs with
  | nil =>
    intro n h
    simp only [countHighM, Except.ok.injEq] at h
    simp [specCountHigh, ← h]
  | cons r rs ih =>
    intro n h
    rw [countHighM] at h
    by_cases hs : r.success
    · rw [if_pos hs] at h
      cases he : _extract_confidence r with
      | error e => rw [he] at h; exact absurd h (by simp)
      | ok q =>
        rw [he] at h
        cases hc : countHighM minConf rs with
        | error e => rw [hc] at h; exact absurd h (by simp)
        | ok m =>
          rw [hc] at h
          simp only [Except.ok.injEq] at h
          have hm := ih m hc
          rw [← h]
          unfold specCountHigh
          rw [List.countP_cons]
          unfold specCountHigh at hm
          simp only [hs, he, Bool.true_and]
          by_cases hlt : minConf < q
          · rw [if_pos hlt, if_pos (by simp [hlt])]
            omega
          · rw [if_neg hlt, if_neg (by simp [hlt])]
            omega
    · rw [if_neg hs] at h
      have hm := ih n h
      unfold specCountHigh
      rw [List.countP_cons]
      unfold specCountHigh at hm
      simp only [hs, Bool.false_and, if_neg]
      simpa using hm

theorem has_confident_answer_ok (minConf : Rat) (minHigh : Int) (rs : List Rec) (b : Bool)
    (h : _has_confident_answer minConf minHigh rs = Except.ok b) :
    b = specConfident minConf minHigh rs := by
  unfold _has_confident_answer at h
  by_cases he : rs.isEmpty
  · rw [if_pos he] at h
    simp only [Except.ok.injEq] at h
    simp [specConfident, he, ← h]
  · rw [if_neg he] at h
    cases hc : countHighM minConf rs with
    | error e => rw [hc] at h; simp at h
    | ok n =>
      rw [hc] at h
      simp only [Except.ok.injEq] at h
      rw [← h]
      have hn := countHighM_ok minConf rs n hc
      unfold specConfident
      rw [← hn]
      simp [he]

theorem applyOrder_perm {α : Type} (ord : List Nat) (xs : List α)
    (h : ord.Perm (List.range xs.length)) : (applyOrder ord xs).Perm xs := by
  unfold applyOrder
  have h1 := h.filterMap xs.get?
  rw [filterMap_get?_range] at h1
  exact h1

theorem isEmpty_eq_of_perm {α : Type} {rs1 rs2 : List α} (h : rs1.Perm rs2) :
    rs1.isEmpty = rs2.isEmpty := by
  have hl := h.length_eq
  cases rs1 with
  | nil =>
    cases rs2 with
    | nil => rfl
    | cons a l => simp at hl
  | cons a l =>
    cases rs2 with
    | nil => simp at hl
    | cons b m => rfl

theorem specConfident_perm (minConf : Rat) (minHigh : Int) {rs1 rs2 : List Rec}
    (h : rs1.Perm rs2) :
    specConfident minConf minHigh rs1 = specConfident minConf minHigh rs2 := by
  unfold specConfident specCountHigh
  rw [h.countP_eq, isEmpty_eq_of_perm h]

theorem stopCount_cons_true (bs : List Bool) : stopCount (true :: bs) = 1 := by
  simp [stopCount, firstTrueIdx]

theorem stopCount_cons_false (bs : List Bool) : stopCount (false :: bs) = stopCount bs + 1 := by
  unfold stopCount
  rw [firstTrueIdx]
  cases h : firstTrueIdx bs with
  | none => simp [h]
  | some i => simp [h]

/-- The wave loop executes waves up to and including the first whose own
submission-order results are confident, independent of the completion
schedules (which permute each wave's results). -/
theorem wavesLoop_ok_processed (fs : String → Except String (List Char))
    (cb : CbInput → Except String PyVal) (query : String) (minConf : Rat)
    (minHigh : Int) (mc : Int) (sched : Nat → List Nat) :
    ∀ (ws : List (List String)) (n : Nat) (acc : List Rec) (res : List Rec × Nat),
      (∀ i w, ws.get? i = some w →
        (sched (n + i)).Perm (List.range (waveRecs fs cb query mc w).length)) →
      wavesLoop fs cb query minConf minHigh mc sched ws n acc = Except.ok res →
      res.2 = n + stopCount (ws.map (fun w => specConfident minConf minHigh
        (waveRecs fs cb query mc w))) := by
  intro ws
  induction ws with
  | nil =>
    intro n acc res _ h
    simp only [wavesLoop, Except.ok.injEq] at h
    simp [← h, stopCount, firstTrueIdx]
  | cons w ws ih =>
    intro n acc res hperm h
    rw [wavesLoop] at h
    have hpermw := hperm 0 w rfl
    rw [Nat.add_zero] at hpermw
    have hpw : (process_wave fs cb query mc (sched n) w).Perm (waveRecs fs cb query mc w) := by
      unfold process_wave waveRecs
      unfold waveRecs at hpermw
      exact applyOrder_perm _ _ hpermw
    cases hh : _has_confident_answer minConf minHigh
        (process_wave fs cb query mc (sched n) w) with
    | error e => rw [hh] at h; exact absurd h (by simp)
    | ok b =>
      rw [hh] at h
      have hb : specConfident minConf minHigh (waveRecs fs cb query mc w) = b := by
        rw [has_confident_answer_ok minConf minHigh _ b hh]
        exact (specConfident_perm minConf minHigh hpw).symm
      cases b with
      | true =>
        simp only [Except.ok.injEq] at h
        rw [List.map_cons, hb, stopCount_cons_true, ← h]
      | false =>
        have hperm2 : ∀ i w2, ws.get? i = some w2 →
            (sched (n + 1 + i)).Perm (List.range (waveRecs fs cb query mc w2).length) := by
          intro i w2 hw2
          have := hperm (i + 1) w2 (by simpa using hw2)
          rwa [(show n + (i + 1) = n + 1 + i by omega)] at this
        have hrec := ih (n + 1) _ res hperm2 h
        rw [hrec, List.map_cons, hb, stopCount_cons_false]
        omega

/-- C1 amended: for every chunk list, query, answer operation and valid
completion schedules, the early-termination decision after each wave
counts the high-confidence successes of that wave alone (not cumulatively
across waves): the scheduler executes waves up to and including the first
wave whose own count reaches `min_high_confidence_chunks`, else all
waves; `early_termination` reflects exactly whether it stopped short. -/
theorem wave_scheduler_stops_on_per_wave_count (fs : String → Except String (List Char))
    (cb : CbInput → Except String PyVal) (query : String) (minConf : Rat)
    (minHigh : Int) (mc : Int) (sched : Nat → List Nat) (paths : List String)
    (waves : List (List String)) (s : Summary)
    (hw : wavesOf paths mc = Except.ok waves)
    (hperm : ∀ i w, waves.get? i = some w →
      (sched i).Perm (List.range (waveRecs fs cb query mc w).length))
    (hrun : process_all_chunks fs cb query minConf minHigh mc sched paths = Except.ok s) :
    s.processed_waves = stopCount (waves.map (fun w => specConfident minConf minHigh
        (waveRecs fs cb query mc w))) ∧
      s.early_termination = decide (s.processed_waves < s.total_waves) := by
  unfold process_all_chunks at hrun
  rw [hw] at hrun
  dsimp only at hrun
  cases hl : wavesLoop fs cb query minConf minHigh mc sched waves 0 [] with
  | error e =>
    rw [hl] at hrun
    simp at hrun
  | ok res =>
    obtain ⟨aR, n⟩ := res
    rw [hl] at hrun
    dsimp only at hrun
    simp only [Except.ok.injEq] at hrun
    have hperm0 : ∀ i w, waves.get? i = some w →
        (sched (0 + i)).Perm (List.range (waveRecs fs cb query mc w).length) := by
      intro i w hw2
      rw [Nat.zero_add]
      exact hperm i w hw2
    have hchar := wavesLoop_ok_processed fs cb query minConf minHigh mc sched
      waves 0 [] (aR, n) hperm0 hl
    constructor
    · rw [← hrun]
      simpa using hchar
    · rw [← hrun]

/-- Answer-side file system for the C1 scenario. -/
def c1fs : String → Except String (List Char) := fun _ => Except.ok ("content".toList)

/-- Callback giving confidence 0.9 to the first three chunks and 0.5 to
the rest. -/
def c1cb : CbInput → Except String PyVal := fun inp =>
  Except.ok (PyVal.pydict [("confidence", PyVal.pyfloat
    (if inp.chunk_file = "p0" ∨ inp.chunk_file = "p1" ∨ inp.chunk_file = "p2"
     then mkRat 9 10 else mkRat 1 2))])

/-- Six chunk paths, forming three waves of width two. -/
def c1paths : List String := ["p0", "p1", "p2", "p3", "p4", "p5"]

/-- The concrete scheduler run of the C1 scenario (threshold 0.8,
`min_high_confidence_chunks = 3`, `max_concurrent = 2`). -/
def c1run : Except String Summary :=
  process_all_chunks c1fs c1cb "q" (mkRat 4 5) 3 2 (fun _ => [0, 1]) c1paths

/-- C1 counterexample: three high-confidence chunks spread over the first
two waves make the cumulative count reach 3 after wave 2 — the scheduler
modelled on the spec's cumulative wording stops there — but the code
executes all 3 waves with no early termination, because it passes only
the freshly completed wave's results to `_has_confident_answer`. -/
theorem early_termination_not_cumulative_cx :
    (match c1run with
     | Except.ok s => (s.processed_waves, s.early_termination)
     | Except.error _ => (0, true)) = (3, false) ∧
    spec_runAll_cumulative c1fs c1cb "q" (mkRat 4 5) 3 2 c1paths = Except.ok 2 := by
  constructor
  · decide
  · rfl

/-- Witness for the amended C1 at the scenario's inputs: no single wave's
own count reaches 3, so all three waves run. -/
theorem wave_scheduler_stops_on_per_wave_count_witness :
    (match c1run with
     | Except.ok s => s.processed_waves
     | Except.error _ => 0) =
      stopCount ([["p0", "p1"], ["p2", "p3"], ["p4", "p5"]].map
        (fun w => specConfident (mkRat 4 5) 3 (waveRecs c1fs c1cb "q" 2 w))) := by
  have hok : ∀ s, c1run = Except.ok s →
      s.processed_waves = stopCount ([["p0", "p1"], ["p2", "p3"], ["p4", "p5"]].map
        (fun w => specConfident (mkRat 4 5) 3 (waveRecs c1fs c1cb "q" 2 w))) := by
    intro s hs
    refine (wave_scheduler_stops_on_per_wave_count c1fs c1cb "q" (mkRat 4 5) 3 2
      (fun _ => [0, 1]) c1paths [["p0", "p1"], ["p2", "p3"], ["p4", "p5"]] s rfl ?_ hs).1
    intro i w hw2
    rcases i with _ | _ | _ | i
    · simp only [List.get?] at hw2
      cases hw2
      have hlen : (waveRecs c1fs c1cb "q" 2 ["p0", "p1"]).length = 2 := rfl
      rw [hlen]
      decide
    · simp only [List.get?] at hw2
      cases hw2
      have hlen : (waveRecs c1fs c1cb "q" 2 ["p2", "p3"]).length = 2 := rfl
      rw [hlen]
      decide
    · simp only [List.get?] at hw2
      cases hw2
      have hlen : (waveRecs c1fs c1cb "q" 2 ["p4", "p5"]).length = 2 := rfl
      rw [hlen]
      decide
    · simp only [List.get?] at hw2
      exact absurd hw2 (by simp)
  cases hr : c1run with
  | error e =>
    have hne : (match c1run with | Except.ok _ => true | Except.error _ => false) = true := by
      decide
    rw [hr] at hne
    simp at hne
  | ok s =>
    simpa [hr] using hok s hr

/-! Claim development for the content classifier (C6). -/

/-- Spec predicate following the claim's words: the entire trimmed text
parses as a single JSON object or array literal. -/
def specParsesAsJsonContainer (content : List Char) : Bool :=
  match json_loads (pyStrip content) with
  | some (JVal.jobj _) => true
  | some (JVal.jarr _) => true
  | _ => false

/-- C6 counterexample: braces around a non-JSON body are classified as
structured data by the anchored brace regex although the trimmed text
does not parse as a JSON object or array literal. -/
theorem detect_content_type_not_json_parse_cx :
    detect_content_type ("\x7boops\x7d".toList) = ContentType.JSON ∧
    specParsesAsJsonContainer ("\x7boops\x7d".toList) = false := by
  exact ⟨by decide, by decide⟩

/-- The trimmed text starts with an opening and ends with a closing brace
(what the anchored DOTALL regex actually tests), or likewise with square
brackets. -/
def specStructuredTag (t : List Char) : Prop :=
  (∃ m, t = '\x7b' :: m ++ ['\x7d']) ∨ (∃ m, t = '[' :: m ++ [']'])

/-- The text begins with one to six hash marks followed by a whitespace
character. -/
def specHeadingTag (t : List Char) : Prop :=
  ∃ k w rest, 1 ≤ k ∧ k ≤ 6 ∧ pyWs w = true ∧ t = List.replicate k '#' ++ w :: rest

/-- The text begins with an ISO-date-bracketed log prefix. -/
def specLogTag (t : List Char) : Prop :=
  ∃ a1 a2 a3 a4 b1 b2 c1 c2 rest,
    a1.isDigit = true ∧ a2.isDigit = true ∧ a3.isDigit = true ∧ a4.isDigit = true ∧
    b1.isDigit = true ∧ b2.isDigit = true ∧ c1.isDigit = true ∧ c2.isDigit = true ∧
    t = '[' :: a1 :: a2 :: a3 :: a4 :: '-' :: b1 :: b2 :: '-' :: c1 :: c2 :: ']' :: rest

/-- The text begins with one of the keywords followed by a whitespace
character. -/
def specKwWs (t : List Char) (kws : List String) : Prop :=
  ∃ kw ∈ kws, ∃ w rest, pyWs w = true ∧ t = kw.toList ++ w :: rest

/-- The text begins with one of the keywords, optional whitespace, and an
opening parenthesis. -/
def specKwParen (t : List Char) (kws : List String) : Prop :=
  ∃ kw ∈ kws, ∃ ws rest, (∀ c ∈ ws, pyWs c = true) ∧ t = kw.toList ++ ws ++ '(' :: rest

/-- The text begins with a recognizable declaration keyword in one of the
three pattern families. -/
def specCodeTag (t : List Char) : Prop :=
  specKwWs t codeKw1 ∨ specKwWs t codeKw2 ∨ specKwParen t codeKw3

theorem headLast_decomp (t : List Char) (a z : Char) :
    (2 ≤ t.length ∧ t.head? = some a ∧ t.getLast? = some z) ↔ ∃ m, t = a :: m ++ [z] := by
  constructor
  · rintro ⟨hlen, hhead, hlast⟩
    cases t with
    | nil => simp at hhead
    | cons c rest =>
      simp only [List.head?_cons, Option.some.injEq] at hhead
      subst hhead
      cases rest with
      | nil => simp at hlen
      | cons r rs =>
        have hne : (r :: rs) ≠ ([] : List Char) := by simp
        rw [List.getLast?_cons_cons, List.getLast?_eq_getLast _ hne, Option.some.injEq] at hlast
        refine ⟨(r :: rs).dropLast, ?_⟩
        conv_lhs => rw [← List.dropLast_append_getLast hne]
        rw [hlast]
        simp
  · rintro ⟨m, rfl⟩
    refine ⟨by simp, by simp, ?_⟩
    rw [(show a :: m ++ [z] = (a :: m) ++ [z] by simp)]
    exact List.getLast?_concat _

theorem jsonObjMatch_iff (t : List Char) :
    jsonObjMatch t = true ↔ ∃ m, t = '\x7b' :: m ++ ['\x7d'] := by
  rw [← headLast_decomp]
  unfold jsonObjMatch
  simp [Bool.and_eq_true, decide_eq_true_eq, beq_iff_eq, and_assoc]

theorem jsonArrMatch_iff (t : List Char) :
    jsonArrMatch t = true ↔ ∃ m, t = '[' :: m ++ [']'] := by
  rw [← headLast_decomp]
  unfold jsonArrMatch
  simp [Bool.and_eq_true, decide_eq_true_eq, beq_iff_eq, and_assoc]

theorem takeWhile_replicate_append (p : Char → Bool) (a w : Char) (rest : List Char)
    (hpa : p a = true) (hpw : p w = false) :
    ∀ k, (List.replicate k a ++ w :: rest).takeWhile p = List.replicate k a := by
  intro k
  induction k with
  | zero => simp [List.takeWhile_cons, hpw]
  | succ k ih =>
    rw [List.replicate_succ, List.cons_append, List.takeWhile_cons]
    simp only [hpa, if_true]
    rw [ih]

theorem get?_replicate_append (a w : Char) (rest : List Char) (k : Nat) :
    (List.replicate k a ++ w :: rest).get? k = some w := by
  rw [List.get?_append_right (by simp)]
  simp

theorem markdownMatch_iff (t : List Char) :
    markdownMatch t = true ↔ specHeadingTag t := by
  unfold markdownMatch specHeadingTag
  constructor
  · intro h
    simp only [Bool.and_eq_true, decide_eq_true_eq] at h
    obtain ⟨⟨h1, h6⟩, hws⟩ := h
    unfold wsAt at hws
    have hsplit : t.takeWhile (fun c => decide (c = '#')) ++
        t.dropWhile (fun c => decide (c = '#')) = t :=
      List.takeWhile_append_dropWhile _ t
    have hrep : t.takeWhile (fun c => decide (c = '#')) =
        List.replicate (t.takeWhile (fun c => decide (c = '#'))).length '#' := by
      rw [List.eq_replicate_iff]
      refine ⟨rfl, fun b hb => ?_⟩
      have h2 := List.mem_takeWhile_imp hb
      simpa using h2
    revert h1 h6 hws
    generalize hk : (t.takeWhile (fun c => decide (c = '#'))).length = k
    intro hws h1 h6
    have hget : t.get? k = (t.dropWhile (fun c => decide (c = '#'))).get? 0 := by
      conv_lhs => rw [← hsplit]
      rw [List.get?_append_right (le_of_eq hk), hk, Nat.sub_self]
    rw [hget] at hws
    cases hdw : t.dropWhile (fun c => decide (c = '#')) with
    | nil => rw [hdw] at hws; simp at hws
    | cons w rest =>
      rw [hdw] at hws
      simp only [List.get?_cons_zero] at hws
      refine ⟨k, w, rest, h1, h6, by simpa using hws, ?_⟩
      conv_lhs => rw [← hsplit]
      rw [hdw, hrep, hk]
  · rintro ⟨k, w, rest, h1, h6, hws, rfl⟩
    have hpw : decide (w = '#') = false := by
      simp only [decide_eq_false_iff_not]
      intro hwE
      subst hwE
      simp [pyWs] at hws
    have htw : (List.replicate k '#' ++ w :: rest).takeWhile (fun c => decide (c = '#')) =
        List.replicate k '#' :=
      takeWhile_replicate_append _ '#' w rest (by simp) hpw k
    simp only [Bool.and_eq_true, decide_eq_true_eq]
    refine ⟨⟨?_, ?_⟩, ?_⟩
    · rw [htw]; simpa using h1
    · rw [htw]; simpa using h6
    · unfold wsAt
      rw [htw, List.length_replicate, get?_replicate_append]
      exact hws

theorem logMatch_iff (t : List Char) : logMatch t = true ↔ specLogTag t := by
  unfold specLogTag
  constructor
  · intro h
    unfold logMatch at h
    split at h
    · rename_i a1 a2 a3 a4 b1 b2 c1 c2 rest
      refine ⟨a1, a2, a3, a4, b1, b2, c1, c2, rest, ?_, ?_, ?_, ?_, ?_, ?_, ?_, ?_, rfl⟩ <;>
        simp_all
    · simp at h
  · rintro ⟨a1, a2, a3, a4, b1, b2, c1, c2, rest, h1, h2, h3, h4, h5, h6, h7, h8, rfl⟩
    simp [logMatch, h1, h2, h3, h4, h5, h6, h7, h8]

theorem kwThenWs_iff (t : List Char) (kws : List String) :
    kwThenWs t kws = true ↔ specKwWs t kws := by
  unfold kwThenWs specKwWs
  rw [List.any_eq_true]
  constructor
  · rintro ⟨kw, hkw, hb⟩
    rw [Bool.and_eq_true] at hb
    obtain ⟨hpre, hws⟩ := hb
    unfold startsWithKw at hpre
    rw [ List.isPrefixOf_iff_prefix] at hpre
    obtain ⟨rest0, rfl⟩ := hpre
    unfold wsAt at hws
    rw [(show String.length kw = kw.toList.length from rfl),
      List.get?_append_right (le_refl _), Nat.sub_self] at hws
    cases rest0 with
    | nil => simp at hws
    | cons w rest =>
      exact ⟨kw, hkw, w, rest, by simpa using hws, rfl⟩
  · rintro ⟨kw, hkw, w, rest, hws, rfl⟩
    refine ⟨kw, hkw, ?_⟩
    rw [Bool.and_eq_true]
    constructor
    · unfold startsWithKw
      rw [ List.isPrefixOf_iff_prefix]
      exact ⟨w :: rest, rfl⟩
    · unfold wsAt
      rw [(show String.length kw = kw.toList.length from rfl),
        List.get?_append_right (le_refl _), Nat.sub_self]
      simpa using hws

theorem dropWhile_append_all (p : Char → Bool) :
    ∀ (l1 l2 : List Char), (∀ c ∈ l1, p c = true) →
      (l1 ++ l2).dropWhile p = l2.dropWhile p := by
  intro l1
  induction l1 with
  | nil => intro l2 _; rfl
  | cons c rest ih =>
    intro l2 h
    rw [List.cons_append, List.dropWhile_cons]
    rw [h c (by simp)]
    simp only [if_true]
    exact ih l2 (fun x hx => h x (by simp [hx]))

theorem kwThenParen_iff (t : List Char) (kws : List String) :
    kwThenParen t kws = true ↔ specKwParen t kws := by
  unfold kwThenParen specKwParen
  rw [List.any_eq_true]
  constructor
  · rintro ⟨kw, hkw, hb⟩
    rw [Bool.and_eq_true] at hb
    obtain ⟨hpre, hpar⟩ := hb
    unfold startsWithKw at hpre
    rw [ List.isPrefixOf_iff_prefix] at hpre
    obtain ⟨rest0, rfl⟩ := hpre
    rw [(show String.length kw = kw.toList.length from rfl), List.drop_left,
      beq_iff_eq] at hpar
    cases hd : rest0.dropWhile pyWs with
    | nil => rw [hd] at hpar; simp at hpar
    | cons c rest =>
      rw [hd] at hpar
      simp only [List.head?_cons, Option.some.injEq] at hpar
      subst hpar
      refine ⟨kw, hkw, rest0.takeWhile pyWs, rest, fun x hx => List.mem_takeWhile_imp hx, ?_⟩
      conv_lhs => rw [← List.takeWhile_append_dropWhile pyWs rest0, hd]
      simp
  · rintro ⟨kw, hkw, ws, rest, hws, rfl⟩
    refine ⟨kw, hkw, ?_⟩
    rw [Bool.and_eq_true]
    refine ⟨?_, ?_⟩
    · unfold startsWithKw
      rw [ List.isPrefixOf_iff_prefix]
      exact ⟨ws ++ '(' :: rest, by simp⟩
    · rw [(show String.length kw = kw.toList.length from rfl)]
      rw [(show kw.toList ++ ws ++ '(' :: rest = kw.toList ++ (ws ++ '(' :: rest) by simp)]
      rw [List.drop_left, dropWhile_append_all pyWs ws _ hws, List.dropWhile_cons]
      simp [pyWs]

/-- C6 amended: the classifier's decision order is as specified except
that the structured-data test is the anchored brace/bracket containment
regex, not JSON parseability: structured-data exactly when the trimmed
text starts with an opening and ends with a matching closing brace or
bracket; else heading, else log prefix, else declaration keyword, else
plain text. -/
theorem detect_content_type_decision_order (content : List Char) :
    (detect_content_type content = ContentType.JSON ↔
      specStructuredTag (pyStrip content)) ∧
    (detect_content_type content = ContentType.MARKDOWN ↔
      ¬ specStructuredTag (pyStrip content) ∧ specHeadingTag (pyStrip content)) ∧
    (detect_content_type content = ContentType.LOG ↔
      ¬ specStructuredTag (pyStrip content) ∧ ¬ specHeadingTag (pyStrip content) ∧
        specLogTag (pyStrip content)) ∧
    (detect_content_type content = ContentType.CODE ↔
      ¬ specStructuredTag (pyStrip content) ∧ ¬ specHeadingTag (pyStrip content) ∧
        ¬ specLogTag (pyStrip content) ∧ specCodeTag (pyStrip content)) ∧
    (detect_content_type content = ContentType.TEXT ↔
      ¬ specStructuredTag (pyStrip content) ∧ ¬ specHeadingTag (pyStrip content) ∧
        ¬ specLogTag (pyStrip content) ∧ ¬ specCodeTag (pyStrip content)) := by
  simp only [detect_content_type, specStructuredTag, specCodeTag]
  split_ifs with h1 h2 h3 h4 h5 h6 h7 <;>
    simp_all [jsonObjMatch_iff, jsonArrMatch_iff, markdownMatch_iff, logMatch_iff,
      kwThenWs_iff, kwThenParen_iff]

end RLM
